import Mathlib

/-!
Verification development for the planemgr versioned graph storage and diff
engine.  The definitions below are shallow embeddings of the TypeScript and
Go sources:

* the graph diff engine (createPlan, diffNode, diffEdge, deepEqual);
* the workspace snapshot codec (buildTfPayload, parsePlanemgrTf,
  buildWorkspaceGraph) from services/api/src/storage/iac.ts;
* the draft-commit state machine of IacStorage (updateWorkspace,
  commitDraft, ensureDraftCommit) from the same file, with the git
  repository modelled as an explicit state value;
* the chart repository (writeChartFiles, cleanChartPath, listChartTree)
  from internal/server/chart/git.go and the input validation of
  HandleChartPut from internal/server/chart.go.

Modelling conventions: JavaScript numbers are modelled as integers (the
claims under study never exercise float-specific behaviour such as NaN);
JSON serialization is modelled structurally, i.e. two files have equal
bytes iff their structured contents are equal, which holds for the
deterministic serializers in the source; freshly generated uuids and
timestamps are omitted from the records because no claim observes them.
-/

namespace Planemgr

/-! ## Character-level string helpers

String order, trimming and splitting are implemented on the character
lists underlying Lean strings so that all definitions evaluate inside the
kernel.  strLe is lexicographic order on unicode scalar values, the order
JavaScript's default sort and Go's string order use on the ascii names
appearing here. -/

/-- Lexicographic order on character lists. -/
def charListLe : List Char → List Char → Bool
  | [], _ => true
  | _ :: _, [] => false
  | a :: as, b :: bs => if a = b then charListLe as bs else decide (a < b)

/-- Lexicographic order on strings, via their character lists. -/
def strLe (a b : String) : Bool := charListLe a.data b.data

/-- Whitespace test matching the trim semantics needed here (space only
appears in the constants under study). -/
def isSpaceChar (c : Char) : Bool := c = ' ' || c = '\t' || c = '\n' || c = '\r'

/-- Trim leading and trailing whitespace from a character list. -/
def trimChars (s : List Char) : List Char :=
  ((s.dropWhile isSpaceChar).reverse.dropWhile isSpaceChar).reverse

/-- Trim of a string, character-list based. -/
def strTrim (s : String) : String := String.mk (trimChars s.data)

/-- Split a character list at a separator character. -/
def splitChars (sep : Char) : List Char → List (List Char)
  | [] => [[]]
  | c :: rest =>
      let groups := splitChars sep rest
      if c = sep then [] :: groups
      else
        match groups with
        | [] => [[c]]
        | g :: gs => (c :: g) :: gs

/-- Join character-list segments with a separator character. -/
def joinChars (sep : Char) : List (List Char) → List Char
  | [] => []
  | [g] => g
  | g :: gs => g ++ sep :: joinChars sep gs

/-! ## JavaScript values and deepEqual

JSValue models the JSON-like values stored in a node's config map.
Numbers are integers (see the header note), undef models the JavaScript
undefined value produced by a missing property access. -/

/-- Model of a JavaScript/JSON value as used in node config maps. -/
inductive JSValue where
  | undef
  | null
  | bool (b : Bool)
  | num (n : Int)
  | str (s : String)
  | arr (items : List JSValue)
  | obj (fields : List (String × JSValue))

/-- Structural (host-language) equality test on JSValue, used to build the
DecidableEq instance that the derived instances for graphs and files chain
through. -/
def jsBeq (l r : JSValue) : Bool :=
  match l, r with
  | .undef, .undef => true
  | .null, .null => true
  | .bool a, .bool b => a == b
  | .num a, .num b => a == b
  | .str a, .str b => a == b
  | .arr xs, .arr ys =>
      xs.length == ys.length &&
      (xs.zip ys).attach.all fun p => jsBeq p.1.1 p.1.2
  | .obj xs, .obj ys =>
      xs.length == ys.length &&
      (xs.zip ys).attach.all fun p => p.1.1.1 == p.1.2.1 && jsBeq p.1.1.2 p.1.2.2
  | _, _ => false
termination_by sizeOf l + sizeOf r
decreasing_by
  · obtain ⟨⟨x, y⟩, hmem⟩ := p
    have h1 := List.of_mem_zip hmem
    have hx := List.sizeOf_lt_of_mem h1.1
    have hy := List.sizeOf_lt_of_mem h1.2
    simp only [JSValue.arr.sizeOf_spec]
    omega
  · obtain ⟨⟨⟨kx, x⟩, ⟨ky, y⟩⟩, hmem⟩ := p
    have h1 := List.of_mem_zip hmem
    have hx := List.sizeOf_lt_of_mem h1.1
    have hy := List.sizeOf_lt_of_mem h1.2
    simp only [JSValue.obj.sizeOf_spec, Prod.mk.sizeOf_spec] at *
    omega

theorem jsBeqList_iff (N : Nat)
    (ih : ∀ a b : JSValue, sizeOf a + sizeOf b < N → (jsBeq a b = true ↔ a = b)) :
    ∀ xs ys : List JSValue, sizeOf xs + sizeOf ys ≤ N →
      ((xs.length == ys.length &&
        (xs.zip ys).attach.all fun p => jsBeq p.1.1 p.1.2) = true ↔ xs = ys) := by
  intro xs
  induction xs with
  | nil =>
    intro ys _
    cases ys <;> simp
  | cons x xt iht =>
    intro ys hsz
    cases ys with
    | nil => simp
    | cons y yt =>
      simp only [List.cons.sizeOf_spec] at hsz
      have hx : sizeOf x + sizeOf y < N := by omega
      have ht : sizeOf xt + sizeOf yt ≤ N := by omega
      have hone := ih x y hx
      have hrest := iht yt ht
      simp only [List.zip_cons_cons, List.length_cons, List.all_eq_true, List.mem_attach,
        true_implies, Subtype.forall, Bool.and_eq_true, beq_iff_eq, List.cons.injEq] at *
      constructor
      · rintro ⟨hlen, hall⟩
        have h1 := hall (x, y) (List.mem_cons_self _ _)
        refine ⟨hone.mp h1, ?_⟩
        refine hrest.mp ⟨by omega, ?_⟩
        intro p hp
        exact hall p (List.mem_cons_of_mem _ hp)
      · rintro ⟨hxy, hrt⟩
        obtain ⟨hlen, hall⟩ := hrest.mpr hrt
        refine ⟨by omega, ?_⟩
        intro p hp
        rcases List.mem_cons.mp hp with hfirst | hrest2
        · subst hfirst; exact hone.mpr hxy
        · exact hall p hrest2

theorem jsBeqFields_iff (N : Nat)
    (ih : ∀ a b : JSValue, sizeOf a + sizeOf b < N → (jsBeq a b = true ↔ a = b)) :
    ∀ xs ys : List (String × JSValue), sizeOf xs + sizeOf ys ≤ N →
      ((xs.length == ys.length &&
        (xs.zip ys).attach.all fun p => p.1.1.1 == p.1.2.1 && jsBeq p.1.1.2 p.1.2.2) = true
        ↔ xs = ys) := by
  intro xs
  induction xs with
  | nil =>
    intro ys _
    cases ys <;> simp
  | cons x xt iht =>
    intro ys hsz
    cases ys with
    | nil => simp
    | cons y yt =>
      obtain ⟨kx, vx⟩ := x
      obtain ⟨ky, vy⟩ := y
      simp only [List.cons.sizeOf_spec, Prod.mk.sizeOf_spec] at hsz
      have hx : sizeOf vx + sizeOf vy < N := by omega
      have ht : sizeOf xt + sizeOf yt ≤ N := by omega
      have hone := ih vx vy hx
      have hrest := iht yt ht
      simp only [List.zip_cons_cons, List.length_cons, List.all_eq_true, List.mem_attach,
        true_implies, Subtype.forall, Bool.and_eq_true, beq_iff_eq, List.cons.injEq,
        Prod.mk.injEq] at *
      constructor
      · rintro ⟨hlen, hall⟩
        have h1 := hall ((kx, vx), (ky, vy)) (List.mem_cons_self _ _)
        refine ⟨⟨h1.1, hone.mp h1.2⟩, ?_⟩
        refine hrest.mp ⟨by omega, ?_⟩
        intro p hp
        exact hall p (List.mem_cons_of_mem _ hp)
      · rintro ⟨⟨hk, hv⟩, hrt⟩
        obtain ⟨hlen, hall⟩ := hrest.mpr hrt
        refine ⟨by omega, ?_⟩
        intro p hp
        rcases List.mem_cons.mp hp with hfirst | hrest2
        · subst hfirst; exact ⟨hk, hone.mpr hv⟩
        · exact hall p hrest2

theorem jsBeq_iff_aux (n : Nat) : ∀ a b : JSValue, sizeOf a + sizeOf b < n →
    (jsBeq a b = true ↔ a = b) := by
  induction n with
  | zero => intro a b h; exact absurd h (by omega)
  | succ n ih =>
    intro a b hab
    cases a <;> cases b <;> rw [jsBeq.eq_def] <;> simp only [] <;> try simp
    case arr.arr xs ys =>
      have hb : sizeOf (JSValue.arr xs) + sizeOf (JSValue.arr ys) < n + 1 := hab
      rw [JSValue.arr.sizeOf_spec, JSValue.arr.sizeOf_spec] at hb
      have := jsBeqList_iff (sizeOf xs + sizeOf ys)
        (fun a b h => ih a b (by omega)) xs ys le_rfl
      simpa using this
    case obj.obj xs ys =>
      have hb : sizeOf (JSValue.obj xs) + sizeOf (JSValue.obj ys) < n + 1 := hab
      rw [JSValue.obj.sizeOf_spec, JSValue.obj.sizeOf_spec] at hb
      have := jsBeqFields_iff (sizeOf xs + sizeOf ys)
        (fun a b h => ih a b (by omega)) xs ys le_rfl
      simpa using this

theorem jsBeq_iff (a b : JSValue) : jsBeq a b = true ↔ a = b :=
  jsBeq_iff_aux (sizeOf a + sizeOf b + 1) a b (by omega)

instance : DecidableEq JSValue := fun a b => decidable_of_iff _ (jsBeq_iff a b)

/-- JavaScript property access on an object: value of the named key, or
undefined when absent. -/
def jsGet : List (String × JSValue) → String → JSValue
  | [], _ => .undef
  | (k, v) :: rest, key => if k == key then v else jsGet rest key

/-- Object.keys(x).sort() of the source deepEqual: the keys of an object
in sorted order. -/
def sortedKeys (fields : List (String × JSValue)) : List String :=
  List.insertionSort (fun a b => strLe a b = true) (fields.map Prod.fst)

theorem jsGet_sizeOf_lt (fields : List (String × JSValue)) (key : String) :
    sizeOf (jsGet fields key) < 1 + sizeOf fields := by
  induction fields with
  | nil => simp [jsGet]
  | cons p rest ih =>
    obtain ⟨k, v⟩ := p
    simp only [jsGet]
    split
    · simp only [List.cons.sizeOf_spec, Prod.mk.sizeOf_spec]
      omega
    · simp only [List.cons.sizeOf_spec, Prod.mk.sizeOf_spec]
      omega

/-- Embedding of deepEqual from the diff engine: structural equality,
arrays compared element-wise in order, objects compared via their sorted
key arrays (the source compares the two sorted key arrays with a
recursive deepEqual call, which on arrays of strings is exactly list
equality) and then key by key through property access. -/
def deepEqual (l r : JSValue) : Bool :=
  match l, r with
  | .undef, .undef => true
  | .null, .null => true
  | .bool a, .bool b => a == b
  | .num a, .num b => a == b
  | .str a, .str b => a == b
  | .arr xs, .arr ys =>
      xs.length == ys.length &&
      (xs.zip ys).attach.all fun p => deepEqual p.1.1 p.1.2
  | .obj xs, .obj ys =>
      sortedKeys xs == sortedKeys ys &&
      (sortedKeys xs).all fun key => deepEqual (jsGet xs key) (jsGet ys key)
  | _, _ => false
termination_by sizeOf l + sizeOf r
decreasing_by
  · obtain ⟨⟨x, y⟩, hmem⟩ := p
    have h1 := List.of_mem_zip hmem
    have hx := List.sizeOf_lt_of_mem h1.1
    have hy := List.sizeOf_lt_of_mem h1.2
    simp only [JSValue.arr.sizeOf_spec]
    omega
  · have hx := jsGet_sizeOf_lt xs key
    have hy := jsGet_sizeOf_lt ys key
    simp only [JSValue.obj.sizeOf_spec]
    omega

theorem zip_self_eq_map (xs : List α) : xs.zip xs = xs.map (fun a => (a, a)) := by
  induction xs with
  | nil => rfl
  | cons a as ih => simp [List.zip, ih, List.zipWith]

theorem deepEqual_refl_aux (n : Nat) : ∀ v : JSValue, sizeOf v ≤ n → deepEqual v v = true := by
  induction n with
  | zero => intro v hv; cases v <;> simp_all
  | succ n ih =>
    intro v hv
    match v with
    | .undef | .null => simp [deepEqual]
    | .bool b | .num m | .str s => simp [deepEqual]
    | .arr xs =>
      rw [deepEqual]
      simp only [beq_self_eq_true, Bool.true_and, List.all_eq_true, List.mem_attach,
        true_implies, Subtype.forall]
      intro p hp
      rw [zip_self_eq_map] at hp
      rcases List.mem_map.mp hp with ⟨a, ha, rfl⟩
      have hsz : sizeOf a < sizeOf xs := List.sizeOf_lt_of_mem ha
      have hbound : sizeOf (JSValue.arr xs) ≤ n + 1 := hv
      rw [JSValue.arr.sizeOf_spec] at hbound
      exact ih a (by omega)
    | .obj fs =>
      rw [deepEqual]
      simp only [beq_self_eq_true, Bool.true_and, List.all_eq_true]
      intro key _
      have hsz := jsGet_sizeOf_lt fs key
      have hbound : sizeOf (JSValue.obj fs) ≤ n + 1 := hv
      rw [JSValue.obj.sizeOf_spec] at hbound
      exact ih (jsGet fs key) (by omega)

theorem deepEqual_refl (v : JSValue) : deepEqual v v = true :=
  deepEqual_refl_aux (sizeOf v) v le_rfl

/-! ## Graph data model

Embedding of the domain schemas from packages/domain: graph nodes and
edges, layers, drift items.  Numeric coordinates are modelled as integers
(the claims never exercise float behaviour). -/

/-- Node kinds of nodeKindSchema. -/
inductive NodeKind where
  | platform | compute | service | network | storage | control | data | security
  deriving DecidableEq

/-- Edge kinds of edgeKindSchema. -/
inductive EdgeKind where
  | data | control | network
  deriving DecidableEq

/-- Screen position of a node (UI metadata). -/
structure Position where
  x : Int
  y : Int
  deriving DecidableEq

/-- Optional size of a platform-kind node. -/
structure NodeSize where
  width : Int
  height : Int
  deriving DecidableEq

/-- Graph node, per graphNodeSchema.  The config record is an association
list of JSON values. -/
structure GraphNode where
  id : String
  kind : NodeKind
  label : String
  layerId : String
  position : Position
  size : Option NodeSize
  config : Option (List (String × JSValue))
  deriving DecidableEq

/-- Graph edge, per graphEdgeSchema. -/
structure GraphEdge where
  id : String
  kind : EdgeKind
  source : String
  target : String
  label : Option String
  deriving DecidableEq

/-- A graph: the unit that is diffed. -/
structure Graph where
  nodes : List GraphNode
  edges : List GraphEdge
  deriving DecidableEq

/-- Layer, per layerSchema. -/
structure Layer where
  id : String
  name : String
  color : String
  visible : Bool
  order : Int
  deriving DecidableEq

/-- Drift status enum. -/
inductive DriftStatus where
  | unknown | in_sync | drifted
  deriving DecidableEq

/-- Drift item, per driftItemSchema. -/
structure DriftItem where
  status : DriftStatus
  lastCheckedAt : Option String
  note : Option String
  deriving DecidableEq

/-! ## Graph diff engine

Embedding of createPlan / diffNode / diffEdge from the diff engine
source.  A diff result is modelled as the list of changed field names (in
the source it is a record whose keys are exactly these names; no claim
observes the from/to payloads).  Plan operations carry action, target,
target id and summary; the freshly generated uuid of each operation and
the generatedAt timestamp of the plan are omitted (no claim observes
them). -/

/-- The value the node diff compares for config: node.config or an empty
object when absent. -/
def configValue : Option (List (String × JSValue)) → JSValue
  | some fields => .obj fields
  | none => .obj []

/-- Field-level diff of two nodes: kind, label, layerId and deep-equal
config.  Position (and size) are not compared. -/
def diffNode (current base : GraphNode) : List String :=
  (if current.kind ≠ base.kind then ["kind"] else []) ++
  (if current.label ≠ base.label then ["label"] else []) ++
  (if current.layerId ≠ base.layerId then ["layerId"] else []) ++
  (if deepEqual (configValue current.config) (configValue base.config) then [] else ["config"])

/-- Field-level diff of two edges: kind, source, target, label with
absent label treated as the empty string. -/
def diffEdge (current base : GraphEdge) : List String :=
  (if current.kind ≠ base.kind then ["kind"] else []) ++
  (if current.source ≠ base.source then ["source"] else []) ++
  (if current.target ≠ base.target then ["target"] else []) ++
  (if current.label.getD "" ≠ base.label.getD "" then ["label"] else [])

/-- Plan operation action. -/
inductive PlanAction where
  | create | update | delete
  deriving DecidableEq

/-- Plan operation target kind. -/
inductive PlanTarget where
  | node | edge
  deriving DecidableEq

/-- Plan operation (uuid omitted, see section header). -/
structure PlanOperation where
  action : PlanAction
  target : PlanTarget
  targetId : String
  summary : String
  deriving DecidableEq

/-- Aggregate operation counts. -/
structure PlanStats where
  adds : Nat
  updates : Nat
  deletes : Nat
  deriving DecidableEq

/-- A plan (generatedAt omitted). -/
structure Plan where
  workspaceId : String
  baseVersionId : Option String
  operations : List PlanOperation
  stats : PlanStats
  deriving DecidableEq

/-- Lookup in a JavaScript Map built from an entry list: later entries
overwrite earlier ones, so the last matching entry wins. -/
def mapGet (entries : List (String × α)) (key : String) : Option α :=
  (entries.reverse.find? fun e => e.1 == key).map Prod.snd

/-- Rendering of an edge kind inside operation summaries. -/
def edgeKindStr : EdgeKind → String
  | .data => "data"
  | .control => "control"
  | .network => "network"

/-- Operations the first loop of createPlan emits for one current node:
a create when the id is absent from the base index, an update when a
field-level diff is non-empty, nothing otherwise. -/
def nodeOpFor (node : GraphNode) (baseNodes : List (String × GraphNode)) : List PlanOperation :=
  match mapGet baseNodes node.id with
  | none => [⟨.create, .node, node.id, "Create node " ++ node.label⟩]
  | some baseNode =>
      if (diffNode node baseNode).length > 0 then
        [⟨.update, .node, node.id, "Update node " ++ node.label⟩]
      else []

/-- Create/update operations for current nodes (first loop of
createPlan). -/
def nodeOps (current : Graph) (baseNodes : List (String × GraphNode)) : List PlanOperation :=
  current.nodes.flatMap fun node => nodeOpFor node baseNodes

/-- Delete operations for base nodes absent from the current graph
(second loop of createPlan). -/
def nodeDeleteOps (base : Option Graph) (currentNodeIds : List String) : List PlanOperation :=
  match base with
  | none => []
  | some b => b.nodes.filterMap fun node =>
      if node.id ∈ currentNodeIds then none
      else some ⟨.delete, .node, node.id, "Remove node " ++ node.label⟩

/-- Operations the third loop of createPlan emits for one current edge. -/
def edgeOpFor (edge : GraphEdge) (baseEdges : List (String × GraphEdge)) : List PlanOperation :=
  match mapGet baseEdges edge.id with
  | none => [⟨.create, .edge, edge.id, "Create " ++ edgeKindStr edge.kind ++ " connection"⟩]
  | some baseEdge =>
      if (diffEdge edge baseEdge).length > 0 then
        [⟨.update, .edge, edge.id, "Update " ++ edgeKindStr edge.kind ++ " connection"⟩]
      else []

/-- Create/update operations for current edges (third loop of
createPlan). -/
def edgeOps (current : Graph) (baseEdges : List (String × GraphEdge)) : List PlanOperation :=
  current.edges.flatMap fun edge => edgeOpFor edge baseEdges

/-- Delete operations for base edges absent from the current graph
(fourth loop of createPlan). -/
def edgeDeleteOps (base : Option Graph) (currentEdgeIds : List String) : List PlanOperation :=
  match base with
  | none => []
  | some b => b.edges.filterMap fun edge =>
      if edge.id ∈ currentEdgeIds then none
      else some ⟨.delete, .edge, edge.id, "Remove " ++ edgeKindStr edge.kind ++ " connection"⟩

/-- Stats reduction over the operation list. -/
def planStats (operations : List PlanOperation) : PlanStats :=
  operations.foldl
    (fun acc op =>
      match op.action with
      | .create => { acc with adds := acc.adds + 1 }
      | .update => { acc with updates := acc.updates + 1 }
      | .delete => { acc with deletes := acc.deletes + 1 })
    ⟨0, 0, 0⟩

/-- Embedding of createPlan: index the base graph by id, emit node
create/update operations, node deletes, edge create/update operations,
edge deletes, then aggregate stats. -/
def createPlan (workspaceId : String) (current : Graph) (base : Option Graph)
    (baseVersionId : Option String) : Plan :=
  let baseNodes := ((base.map Graph.nodes).getD []).map fun node => (node.id, node)
  let baseEdges := ((base.map Graph.edges).getD []).map fun edge => (edge.id, edge)
  let currentNodeIds := current.nodes.map GraphNode.id
  let currentEdgeIds := current.edges.map GraphEdge.id
  let operations :=
    nodeOps current baseNodes ++ nodeDeleteOps base currentNodeIds ++
    edgeOps current baseEdges ++ edgeDeleteOps base currentEdgeIds
  ⟨workspaceId, baseVersionId, operations, planStats operations⟩

/-- Node ids of a graph. -/
def nodeIds (g : Graph) : List String := g.nodes.map GraphNode.id

/-- Edge ids of a graph. -/
def edgeIds (g : Graph) : List String := g.edges.map GraphEdge.id

/-- Target ids of the operations of a plan with a given action and
target kind. -/
def opTargetIds (p : Plan) (a : PlanAction) (t : PlanTarget) : List String :=
  (p.operations.filter fun op => decide (op.action = a) && decide (op.target = t)).map
    PlanOperation.targetId

/-- A node with its position cleared: two graphs are identical except for
node positions iff their node lists agree under this map. -/
def clearPos (n : GraphNode) : GraphNode := { n with position := ⟨0, 0⟩ }

/-- A node with its size cleared: two graphs are identical except for
node sizes iff their node lists agree under this map. -/
def clearSize (n : GraphNode) : GraphNode := { n with size := none }

theorem mapGet_eq_none_iff (entries : List (String × α)) (key : String) :
    mapGet entries key = none ↔ ∀ e ∈ entries, e.1 ≠ key := by
  simp [mapGet, List.find?_eq_none]

theorem mapGet_of_nodupKeys (entries : List (String × α))
    (hnd : (entries.map Prod.fst).Nodup) (k : String) (v : α) (hmem : (k, v) ∈ entries) :
    mapGet entries k = some v := by
  induction entries with
  | nil => cases hmem
  | cons e rest ih =>
    simp only [List.map_cons, List.nodup_cons] at hnd
    rcases List.mem_cons.mp hmem with heq | hmemr
    · have hnone : rest.reverse.find? (fun x => x.1 == k) = none := by
        rw [List.find?_eq_none]
        intro x hx
        have hx2 : x ∈ rest := List.mem_reverse.mp hx
        have : x.1 ∈ rest.map Prod.fst := List.mem_map_of_mem Prod.fst hx2
        simp only [beq_iff_eq]
        intro hk
        apply hnd.1
        have he1 : e.1 = k := by rw [← heq]
        rw [he1, ← hk]
        exact this
      simp only [mapGet, List.reverse_cons, List.find?_append, hnone, Option.none_or]
      rw [← heq]
      simp
    · have hrec := ih hnd.2 hmemr
      simp only [mapGet] at hrec ⊢
      rcases Option.map_eq_some'.mp hrec with ⟨w, hw, hwv⟩
      simp [List.reverse_cons, List.find?_append, hw, hwv]

theorem mapGet_nodes_eq_none_iff (ns : List GraphNode) (k : String) :
    mapGet (ns.map fun n => (n.id, n)) k = none ↔ k ∉ ns.map GraphNode.id := by
  rw [mapGet_eq_none_iff]
  simp only [List.mem_map, ne_eq]
  constructor
  · rintro h ⟨n, hn, rfl⟩
    exact h (n.id, n) ⟨n, hn, rfl⟩ rfl
  · rintro h e ⟨n, hn, rfl⟩ hk
    exact h ⟨n, hn, hk⟩

theorem mapGet_edges_eq_none_iff (es : List GraphEdge) (k : String) :
    mapGet (es.map fun e => (e.id, e)) k = none ↔ k ∉ es.map GraphEdge.id := by
  rw [mapGet_eq_none_iff]
  simp only [List.mem_map, ne_eq]
  constructor
  · rintro h ⟨e, he, rfl⟩
    exact h (e.id, e) ⟨e, he, rfl⟩ rfl
  · rintro h x ⟨e, he, rfl⟩ hk
    exact h ⟨e, he, hk⟩

theorem diffNode_self (n : GraphNode) : diffNode n n = [] := by
  simp [diffNode, deepEqual_refl]

theorem diffEdge_self (e : GraphEdge) : diffEdge e e = [] := by
  simp [diffEdge]

theorem clearPos_id (n : GraphNode) : (clearPos n).id = n.id := rfl

theorem clearSize_id (n : GraphNode) : (clearSize n).id = n.id := rfl

theorem diffNode_of_clearPos_eq (a b : GraphNode) (h : clearPos a = clearPos b) :
    diffNode a b = [] := by
  have hk := congrArg GraphNode.kind h
  have hl := congrArg GraphNode.label h
  have hy := congrArg GraphNode.layerId h
  have hc := congrArg GraphNode.config h
  simp only [clearPos] at hk hl hy hc
  simp [diffNode, hk, hl, hy, hc, deepEqual_refl]

theorem diffNode_of_clearSize_eq (a b : GraphNode) (h : clearSize a = clearSize b) :
    diffNode a b = [] := by
  have hk := congrArg GraphNode.kind h
  have hl := congrArg GraphNode.label h
  have hy := congrArg GraphNode.layerId h
  have hc := congrArg GraphNode.config h
  simp only [clearSize] at hk hl hy hc
  simp [diffNode, hk, hl, hy, hc, deepEqual_refl]

theorem map_eq_map_pointwise {α β : Type} (f : α → β) :
    ∀ xs ys : List α, xs.map f = ys.map f → ∀ a ∈ xs, ∃ b ∈ ys, f a = f b := by
  intro xs
  induction xs with
  | nil => intro ys _ a ha; cases ha
  | cons x xt ih =>
    intro ys h a ha
    cases ys with
    | nil => simp at h
    | cons y yt =>
      simp only [List.map_cons, List.cons.injEq] at h
      rcases List.mem_cons.mp ha with rfl | hat
      · exact ⟨y, List.mem_cons_self _ _, h.1⟩
      · rcases ih yt h.2 a hat with ⟨b, hb, hfb⟩
        exact ⟨b, List.mem_cons_of_mem _ hb, hfb⟩

theorem nodeOpFor_none (node : GraphNode) (bn : List (String × GraphNode))
    (h : mapGet bn node.id = none) :
    nodeOpFor node bn = [⟨.create, .node, node.id, "Create node " ++ node.label⟩] := by
  simp [nodeOpFor, h]

theorem nodeOpFor_some (node b : GraphNode) (bn : List (String × GraphNode))
    (h : mapGet bn node.id = some b) :
    nodeOpFor node bn =
      if (diffNode node b).length > 0 then
        [⟨.update, .node, node.id, "Update node " ++ node.label⟩]
      else [] := by
  simp [nodeOpFor, h]

theorem edgeOpFor_none (edge : GraphEdge) (be : List (String × GraphEdge))
    (h : mapGet be edge.id = none) :
    edgeOpFor edge be =
      [⟨.create, .edge, edge.id, "Create " ++ edgeKindStr edge.kind ++ " connection"⟩] := by
  simp [edgeOpFor, h]

theorem edgeOpFor_some (edge b : GraphEdge) (be : List (String × GraphEdge))
    (h : mapGet be edge.id = some b) :
    edgeOpFor edge be =
      if (diffEdge edge b).length > 0 then
        [⟨.update, .edge, edge.id, "Update " ++ edgeKindStr edge.kind ++ " connection"⟩]
      else [] := by
  simp [edgeOpFor, h]

/-- Operations emitted by the node create/update loop target nodes and
are never deletes. -/
theorem nodeOps_shape (c : Graph) (bn : List (String × GraphNode)) (op : PlanOperation)
    (hop : op ∈ nodeOps c bn) : op.target = .node ∧ op.action ≠ .delete := by
  simp only [nodeOps, List.mem_flatMap] at hop
  rcases hop with ⟨n, _, hmem⟩
  cases hmg : mapGet bn n.id with
  | none =>
    rw [nodeOpFor_none n bn hmg] at hmem
    simp at hmem; subst hmem; exact ⟨rfl, by simp⟩
  | some b =>
    rw [nodeOpFor_some n b bn hmg] at hmem
    by_cases hgt : (diffNode n b).length > 0
    · rw [if_pos hgt] at hmem; simp at hmem; subst hmem; exact ⟨rfl, by simp⟩
    · rw [if_neg hgt] at hmem; cases hmem

theorem edgeOps_shape (c : Graph) (be : List (String × GraphEdge)) (op : PlanOperation)
    (hop : op ∈ edgeOps c be) : op.target = .edge ∧ op.action ≠ .delete := by
  simp only [edgeOps, List.mem_flatMap] at hop
  rcases hop with ⟨e, _, hmem⟩
  cases hmg : mapGet be e.id with
  | none =>
    rw [edgeOpFor_none e be hmg] at hmem
    simp at hmem; subst hmem; exact ⟨rfl, by simp⟩
  | some b =>
    rw [edgeOpFor_some e b be hmg] at hmem
    by_cases hgt : (diffEdge e b).length > 0
    · rw [if_pos hgt] at hmem; simp at hmem; subst hmem; exact ⟨rfl, by simp⟩
    · rw [if_neg hgt] at hmem; cases hmem

theorem nodeDeleteOps_shape (b : Option Graph) (ids : List String) (op : PlanOperation)
    (hop : op ∈ nodeDeleteOps b ids) : op.target = .node ∧ op.action = .delete := by
  cases b with
  | none => cases hop
  | some g =>
    simp only [nodeDeleteOps, List.mem_filterMap] at hop
    rcases hop with ⟨n, _, hmem⟩
    split at hmem
    · cases hmem
    · simp at hmem; subst hmem; exact ⟨rfl, rfl⟩

theorem edgeDeleteOps_shape (b : Option Graph) (ids : List String) (op : PlanOperation)
    (hop : op ∈ edgeDeleteOps b ids) : op.target = .edge ∧ op.action = .delete := by
  cases b with
  | none => cases hop
  | some g =>
    simp only [edgeDeleteOps, List.mem_filterMap] at hop
    rcases hop with ⟨e, _, hmem⟩
    split at hmem
    · cases hmem
    · simp at hmem; subst hmem; exact ⟨rfl, rfl⟩

theorem mem_targets_nodeOps_create (c : Graph) (bn : List (String × GraphNode)) (i : String) :
    i ∈ ((nodeOps c bn).filter fun op =>
          decide (op.action = .create) && decide (op.target = .node)).map PlanOperation.targetId
      ↔ ∃ n ∈ c.nodes, n.id = i ∧ mapGet bn n.id = none := by
  simp only [List.mem_map, List.mem_filter, nodeOps, List.mem_flatMap, Bool.and_eq_true,
    decide_eq_true_eq]
  constructor
  · rintro ⟨op, ⟨⟨n, hn, hmem⟩, hact, htgt⟩, hid⟩
    cases hmg : mapGet bn n.id with
    | none =>
      rw [nodeOpFor_none n bn hmg] at hmem
      simp at hmem; subst hmem; exact ⟨n, hn, hid, hmg⟩
    | some b =>
      rw [nodeOpFor_some n b bn hmg] at hmem
      by_cases hgt : (diffNode n b).length > 0
      · rw [if_pos hgt] at hmem; simp at hmem; subst hmem; simp at hact
      · rw [if_neg hgt] at hmem; cases hmem
  · rintro ⟨n, hn, rfl, hmg⟩
    refine ⟨⟨.create, .node, n.id, "Create node " ++ n.label⟩, ⟨⟨n, hn, ?_⟩, rfl, rfl⟩, rfl⟩
    rw [nodeOpFor_none n bn hmg]
    simp

theorem mem_targets_edgeOps_create (c : Graph) (be : List (String × GraphEdge)) (i : String) :
    i ∈ ((edgeOps c be).filter fun op =>
          decide (op.action = .create) && decide (op.target = .edge)).map PlanOperation.targetId
      ↔ ∃ e ∈ c.edges, e.id = i ∧ mapGet be e.id = none := by
  simp only [List.mem_map, List.mem_filter, edgeOps, List.mem_flatMap, Bool.and_eq_true,
    decide_eq_true_eq]
  constructor
  · rintro ⟨op, ⟨⟨e, he, hmem⟩, hact, htgt⟩, hid⟩
    cases hmg : mapGet be e.id with
    | none =>
      rw [edgeOpFor_none e be hmg] at hmem
      simp at hmem; subst hmem; exact ⟨e, he, hid, hmg⟩
    | some b =>
      rw [edgeOpFor_some e b be hmg] at hmem
      by_cases hgt : (diffEdge e b).length > 0
      · rw [if_pos hgt] at hmem; simp at hmem; subst hmem; simp at hact
      · rw [if_neg hgt] at hmem; cases hmem
  · rintro ⟨e, he, rfl, hmg⟩
    refine ⟨⟨.create, .edge, e.id, "Create " ++ edgeKindStr e.kind ++ " connection"⟩,
      ⟨⟨e, he, ?_⟩, rfl, rfl⟩, rfl⟩
    rw [edgeOpFor_none e be hmg]
    simp

theorem mem_targets_nodeDeleteOps (g : Graph) (ids : List String) (i : String) :
    i ∈ ((nodeDeleteOps (some g) ids).filter fun op =>
          decide (op.action = .delete) && decide (op.target = .node)).map PlanOperation.targetId
      ↔ ∃ n ∈ g.nodes, n.id = i ∧ n.id ∉ ids := by
  simp only [List.mem_map, List.mem_filter, nodeDeleteOps, List.mem_filterMap, Bool.and_eq_true,
    decide_eq_true_eq]
  constructor
  · rintro ⟨op, ⟨⟨n, hn, hmem⟩, _, _⟩, hid⟩
    split at hmem
    · cases hmem
    · simp at hmem; subst hmem; exact ⟨n, hn, hid, by assumption⟩
  · rintro ⟨n, hn, rfl, hni⟩
    refine ⟨⟨.delete, .node, n.id, "Remove node " ++ n.label⟩, ⟨⟨n, hn, ?_⟩, rfl, rfl⟩, rfl⟩
    simp [hni]

theorem mem_targets_edgeDeleteOps (g : Graph) (ids : List String) (i : String) :
    i ∈ ((edgeDeleteOps (some g) ids).filter fun op =>
          decide (op.action = .delete) && decide (op.target = .edge)).map PlanOperation.targetId
      ↔ ∃ e ∈ g.edges, e.id = i ∧ e.id ∉ ids := by
  simp only [List.mem_map, List.mem_filter, edgeDeleteOps, List.mem_filterMap, Bool.and_eq_true,
    decide_eq_true_eq]
  constructor
  · rintro ⟨op, ⟨⟨e, he, hmem⟩, _, _⟩, hid⟩
    split at hmem
    · cases hmem
    · simp at hmem; subst hmem; exact ⟨e, he, hid, by assumption⟩
  · rintro ⟨e, he, rfl, hei⟩
    refine ⟨⟨.delete, .edge, e.id, "Remove " ++ edgeKindStr e.kind ++ " connection"⟩,
      ⟨⟨e, he, ?_⟩, rfl, rfl⟩, rfl⟩
    simp [hei]

/-- Membership in the filtered operation list of a plan distributes over
the four component lists of createPlan. -/
theorem mem_opTargetIds_iff (wid : String) (c : Graph) (b : Option Graph) (bv : Option String)
    (a : PlanAction) (t : PlanTarget) (i : String) :
    i ∈ opTargetIds (createPlan wid c b bv) a t ↔
      (i ∈ ((nodeOps c (((b.map Graph.nodes).getD []).map fun n => (n.id, n))).filter fun op =>
          decide (op.action = a) && decide (op.target = t)).map PlanOperation.targetId) ∨
      (i ∈ ((nodeDeleteOps b (c.nodes.map GraphNode.id)).filter fun op =>
          decide (op.action = a) && decide (op.target = t)).map PlanOperation.targetId) ∨
      (i ∈ ((edgeOps c (((b.map Graph.edges).getD []).map fun e => (e.id, e))).filter fun op =>
          decide (op.action = a) && decide (op.target = t)).map PlanOperation.targetId) ∨
      (i ∈ ((edgeDeleteOps b (c.edges.map GraphEdge.id)).filter fun op =>
          decide (op.action = a) && decide (op.target = t)).map PlanOperation.targetId) := by
  simp [opTargetIds, createPlan, List.filter_append, List.map_append, List.mem_append, or_assoc]

/-- Filtered targets of a shape-conflicting component list are empty. -/
theorem not_mem_conflict (L : List PlanOperation) (a : PlanAction) (t : PlanTarget) (i : String)
    (hshape : ∀ op ∈ L, ¬(op.action = a ∧ op.target = t)) :
    i ∉ (L.filter fun op => decide (op.action = a) && decide (op.target = t)).map
      PlanOperation.targetId := by
  intro h
  rcases List.mem_map.mp h with ⟨op, hf, _⟩
  have hmf := List.mem_filter.mp hf
  have := hmf.2
  simp only [Bool.and_eq_true, decide_eq_true_eq] at this
  exact hshape op hmf.1 this

/-- Claim C1: with a non-null base, the create target ids of the plan are
exactly the ids present in the current graph and absent from the base,
and the delete target ids are exactly the ids present in the base and
absent from the current graph, separately for nodes and edges. -/
theorem createPlan_create_delete_id_sets (wid : String) (bv : Option String)
    (B C : Graph) (i : String) :
    (i ∈ opTargetIds (createPlan wid C (some B) bv) .create .node ↔
        i ∈ nodeIds C ∧ i ∉ nodeIds B) ∧
    (i ∈ opTargetIds (createPlan wid C (some B) bv) .delete .node ↔
        i ∈ nodeIds B ∧ i ∉ nodeIds C) ∧
    (i ∈ opTargetIds (createPlan wid C (some B) bv) .create .edge ↔
        i ∈ edgeIds C ∧ i ∉ edgeIds B) ∧
    (i ∈ opTargetIds (createPlan wid C (some B) bv) .delete .edge ↔
        i ∈ edgeIds B ∧ i ∉ edgeIds C) := by
  have hnd := fun op hop => nodeDeleteOps_shape (some B) (C.nodes.map GraphNode.id) op hop
  have hed := fun op hop => edgeDeleteOps_shape (some B) (C.edges.map GraphEdge.id) op hop
  have hno := fun op hop =>
    nodeOps_shape C (((Option.map Graph.nodes (some B)).getD []).map fun n => (n.id, n)) op hop
  have heo := fun op hop =>
    edgeOps_shape C (((Option.map Graph.edges (some B)).getD []).map fun e => (e.id, e)) op hop
  refine ⟨?_, ?_, ?_, ?_⟩
  · rw [mem_opTargetIds_iff]
    constructor
    · rintro (h | h | h | h)
      · rcases (mem_targets_nodeOps_create ..).mp h with ⟨n, hn, rfl, hmg⟩
        simp only [Option.map_some', Option.getD_some] at hmg
        rw [mapGet_nodes_eq_none_iff] at hmg
        exact ⟨List.mem_map_of_mem _ hn, hmg⟩
      · exact absurd h (not_mem_conflict _ _ _ _ fun op hop hc => by
          simpa [hc.1] using (hnd op hop).2)
      · exact absurd h (not_mem_conflict _ _ _ _ fun op hop hc => by
          simpa [hc.2] using (heo op hop).1)
      · exact absurd h (not_mem_conflict _ _ _ _ fun op hop hc => by
          simpa [hc.2] using (hed op hop).1)
    · rintro ⟨hc, hb⟩
      left
      rcases List.mem_map.mp hc with ⟨n, hn, rfl⟩
      refine (mem_targets_nodeOps_create ..).mpr ⟨n, hn, rfl, ?_⟩
      simp only [Option.map_some', Option.getD_some]
      rw [mapGet_nodes_eq_none_iff]
      exact hb
  · rw [mem_opTargetIds_iff]
    constructor
    · rintro (h | h | h | h)
      · exact absurd h (not_mem_conflict _ _ _ _ fun op hop hc => by
          simpa [hc.1] using (hno op hop).2)
      · rcases (mem_targets_nodeDeleteOps ..).mp h with ⟨n, hn, rfl, hni⟩
        exact ⟨List.mem_map_of_mem _ hn, hni⟩
      · exact absurd h (not_mem_conflict _ _ _ _ fun op hop hc => by
          simpa [hc.2] using (heo op hop).1)
      · exact absurd h (not_mem_conflict _ _ _ _ fun op hop hc => by
          simpa [hc.2] using (hed op hop).1)
    · rintro ⟨hb, hc⟩
      right; left
      rcases List.mem_map.mp hb with ⟨n, hn, rfl⟩
      exact (mem_targets_nodeDeleteOps ..).mpr ⟨n, hn, rfl, hc⟩
  · rw [mem_opTargetIds_iff]
    constructor
    · rintro (h | h | h | h)
      · exact absurd h (not_mem_conflict _ _ _ _ fun op hop hc => by
          simpa [hc.2] using (hno op hop).1)
      · exact absurd h (not_mem_conflict _ _ _ _ fun op hop hc => by
          simpa [hc.2] using (hnd op hop).1)
      · rcases (mem_targets_edgeOps_create ..).mp h with ⟨e, he, rfl, hmg⟩
        simp only [Option.map_some', Option.getD_some] at hmg
        rw [mapGet_edges_eq_none_iff] at hmg
        exact ⟨List.mem_map_of_mem _ he, hmg⟩
      · exact absurd h (not_mem_conflict _ _ _ _ fun op hop hc => by
          simpa [hc.1] using (hed op hop).2)
    · rintro ⟨hc, hb⟩
      right; right; left
      rcases List.mem_map.mp hc with ⟨e, he, rfl⟩
      refine (mem_targets_edgeOps_create ..).mpr ⟨e, he, rfl, ?_⟩
      simp only [Option.map_some', Option.getD_some]
      rw [mapGet_edges_eq_none_iff]
      exact hb
  · rw [mem_opTargetIds_iff]
    constructor
    · rintro (h | h | h | h)
      · exact absurd h (not_mem_conflict _ _ _ _ fun op hop hc => by
          simpa [hc.2] using (hno op hop).1)
      · exact absurd h (not_mem_conflict _ _ _ _ fun op hop hc => by
          simpa [hc.2] using (hnd op hop).1)
      · exact absurd h (not_mem_conflict _ _ _ _ fun op hop hc => by
          simpa [hc.1] using (heo op hop).2)
      · rcases (mem_targets_edgeDeleteOps ..).mp h with ⟨e, he, rfl, hei⟩
        exact ⟨List.mem_map_of_mem _ he, hei⟩
    · rintro ⟨hb, hc⟩
      right; right; right
      rcases List.mem_map.mp hb with ⟨e, he, rfl⟩
      exact (mem_targets_edgeDeleteOps ..).mpr ⟨e, he, rfl, hc⟩

theorem indexedNodes_keys (ns : List GraphNode) :
    (ns.map fun n => (n.id, n)).map Prod.fst = ns.map GraphNode.id := by
  simp [List.map_map, Function.comp]

theorem indexedEdges_keys (es : List GraphEdge) :
    (es.map fun e => (e.id, e)).map Prod.fst = es.map GraphEdge.id := by
  simp [List.map_map, Function.comp]

/-- General empty-diff lemma: when a node view f that determines all
diff-compared fields and the id agrees pointwise between current and
base, and the edges coincide, the plan is empty.  Instantiated with the
identity for diff(G, G), with clearPos for position-only changes and with
clearSize for size-only changes. -/
theorem createPlan_empty_of_view (f : GraphNode → GraphNode)
    (hid : ∀ n, (f n).id = n.id)
    (hdiff : ∀ a b, f a = f b → diffNode a b = [])
    (wid : String) (bv : Option String) (current base : Graph)
    (hn : (nodeIds base).Nodup) (he : (edgeIds base).Nodup)
    (hnodes : current.nodes.map f = base.nodes.map f)
    (hedges : current.edges = base.edges) :
    (createPlan wid current (some base) bv).operations = [] ∧
    (createPlan wid current (some base) bv).stats = ⟨0, 0, 0⟩ := by
  have hids : nodeIds current = nodeIds base := by
    have hmc : ∀ xs : List GraphNode, xs.map GraphNode.id = (xs.map f).map GraphNode.id := by
      intro xs
      rw [List.map_map]
      exact (List.map_congr_left fun a _ => (hid a).symm)
    show current.nodes.map GraphNode.id = base.nodes.map GraphNode.id
    rw [hmc current.nodes, hmc base.nodes, hnodes]
  have h1 : nodeOps current (base.nodes.map fun n => (n.id, n)) = [] := by
    rw [nodeOps, List.flatMap_eq_nil_iff]
    intro n hmemn
    rcases map_eq_map_pointwise f current.nodes base.nodes hnodes n hmemn with ⟨b, hb, hfb⟩
    have hidb : n.id = b.id := by rw [← hid n, ← hid b, hfb]
    have hmg : mapGet (base.nodes.map fun m => (m.id, m)) n.id = some b := by
      rw [hidb]
      exact mapGet_of_nodupKeys _ (by rw [indexedNodes_keys]; exact hn) b.id b
        (List.mem_map_of_mem _ hb)
    rw [nodeOpFor_some n b _ hmg, hdiff n b hfb]
    simp
  have h2 : nodeDeleteOps (some base) (current.nodes.map GraphNode.id) = [] := by
    rw [nodeDeleteOps, List.filterMap_eq_nil_iff]
    intro n hmemn
    have : n.id ∈ current.nodes.map GraphNode.id := by
      show n.id ∈ nodeIds current
      rw [hids]
      exact List.mem_map_of_mem _ hmemn
    simp [this]
  have h3 : edgeOps current (base.edges.map fun e => (e.id, e)) = [] := by
    rw [edgeOps, List.flatMap_eq_nil_iff]
    intro e hmeme
    rw [hedges] at hmeme
    have hmg : mapGet (base.edges.map fun x => (x.id, x)) e.id = some e :=
      mapGet_of_nodupKeys _ (by rw [indexedEdges_keys]; exact he) e.id e
        (List.mem_map_of_mem _ hmeme)
    rw [edgeOpFor_some e e _ hmg, diffEdge_self]
    simp
  have h4 : edgeDeleteOps (some base) (current.edges.map GraphEdge.id) = [] := by
    rw [edgeDeleteOps, List.filterMap_eq_nil_iff]
    intro e hmeme
    have : e.id ∈ current.edges.map GraphEdge.id := by
      rw [hedges]
      exact List.mem_map_of_mem _ hmeme
    simp [this]
  simp only [createPlan, Option.map_some', Option.getD_some]
  rw [h1, h2, h3, h4]
  exact ⟨rfl, rfl⟩

/-- Claim C2: diffing a valid graph against itself yields no operations
and zero stats. -/
theorem createPlan_self_empty (wid : String) (bv : Option String) (G : Graph)
    (hn : (nodeIds G).Nodup) (he : (edgeIds G).Nodup) :
    (createPlan wid G (some G) bv).operations = [] ∧
    (createPlan wid G (some G) bv).stats = ⟨0, 0, 0⟩ :=
  createPlan_empty_of_view (fun n => n) (fun _ => rfl)
    (fun a b hab => by
      have hab2 : a = b := hab
      rw [hab2]; exact diffNode_self b) wid bv G G hn he rfl rfl

/-- Sample graph used by witnesses: one compute node, one loop edge. -/
def sampleGraph : Graph :=
  ⟨[⟨"n1", .compute, "Web", "infra", ⟨10, 20⟩, none, none⟩],
    [⟨"e1", .data, "n1", "n1", some "loop"⟩]⟩

/-- Witness for C2 at a one-node, one-edge graph. -/
theorem createPlan_self_empty_witness :
    ((nodeIds sampleGraph).Nodup ∧ (edgeIds sampleGraph).Nodup) ∧
    (createPlan "ws" sampleGraph (some sampleGraph) none).operations = [] :=
  ⟨⟨by decide, by decide⟩,
    (createPlan_self_empty "ws" none sampleGraph (by decide) (by decide)).1⟩

/-- Claim C3: two graphs identical except for node positions produce an
empty plan (position is not among the compared fields). -/
theorem createPlan_position_only_empty (wid : String) (bv : Option String)
    (current base : Graph)
    (hn : (nodeIds base).Nodup) (he : (edgeIds base).Nodup)
    (hnodes : current.nodes.map clearPos = base.nodes.map clearPos)
    (hedges : current.edges = base.edges) :
    (createPlan wid current (some base) bv).operations = [] ∧
    (createPlan wid current (some base) bv).stats = ⟨0, 0, 0⟩ :=
  createPlan_empty_of_view clearPos clearPos_id diffNode_of_clearPos_eq
    wid bv current base hn he hnodes hedges

/-- Base graph for the C3 witness: one node at (10, 20). -/
def movedBaseGraph : Graph := ⟨[⟨"n1", .compute, "Web", "infra", ⟨10, 20⟩, none, none⟩], []⟩

/-- Current graph for the C3 witness: same node moved to (300, 400). -/
def movedCurrentGraph : Graph := ⟨[⟨"n1", .compute, "Web", "infra", ⟨300, 400⟩, none, none⟩], []⟩

/-- Witness for C3: moving a node from (10, 20) to (300, 400) yields an
empty plan. -/
theorem createPlan_position_only_empty_witness :
    (movedCurrentGraph.nodes.map clearPos = movedBaseGraph.nodes.map clearPos) ∧
    (createPlan "ws" movedCurrentGraph (some movedBaseGraph) none).operations = [] :=
  ⟨rfl,
    (createPlan_position_only_empty "ws" none movedCurrentGraph movedBaseGraph
      (by decide) (by decide) rfl rfl).1⟩

/-! ## Order properties of the string comparison used for key sorting -/

theorem charListLe_total : ∀ as bs : List Char, charListLe as bs = true ∨ charListLe bs as = true := by
  intro as
  induction as with
  | nil => intro bs; left; rfl
  | cons a at' ih =>
    intro bs
    cases bs with
    | nil => right; rfl
    | cons b bt =>
      by_cases hab : a = b
      · subst hab
        rcases ih bt with h | h
        · left; simp [charListLe, h]
        · right; simp [charListLe, h]
      · rcases lt_or_gt_of_ne hab with hlt | hgt
        · left; simp [charListLe, hab, hlt]
        · right; simp [charListLe, Ne.symm hab, hgt]

theorem charListLe_trans : ∀ as bs cs : List Char,
    charListLe as bs = true → charListLe bs cs = true → charListLe as cs = true := by
  intro as
  induction as with
  | nil => intro bs cs _ _; rfl
  | cons a at' ih =>
    intro bs cs hab hbc
    cases bs with
    | nil => exact Bool.noConfusion hab
    | cons b bt =>
      cases cs with
      | nil => exact Bool.noConfusion hbc
      | cons c ct =>
        by_cases h1 : a = b <;> by_cases h2 : b = c
        · subst h1; subst h2
          simp only [charListLe, if_pos rfl] at hab hbc ⊢
          exact ih bt ct hab hbc
        · subst h1
          simp only [charListLe, if_pos rfl, if_neg h2, decide_eq_true_eq] at hbc ⊢
          exact hbc
        · subst h2
          simp only [charListLe, if_neg h1, decide_eq_true_eq] at hab ⊢
          exact hab
        · simp only [charListLe, if_neg h1, decide_eq_true_eq] at hab
          simp only [charListLe, if_neg h2, decide_eq_true_eq] at hbc
          have hac : a < c := lt_trans hab hbc
          simp [charListLe, ne_of_lt hac, hac]

theorem charListLe_antisymm : ∀ as bs : List Char,
    charListLe as bs = true → charListLe bs as = true → as = bs := by
  intro as
  induction as with
  | nil =>
    intro bs h1 h2
    cases bs with
    | nil => rfl
    | cons b bt => exact Bool.noConfusion h2
  | cons a at' ih =>
    intro bs h1 h2
    cases bs with
    | nil => exact Bool.noConfusion h1
    | cons b bt =>
      by_cases hab : a = b
      · subst hab
        simp only [charListLe, if_pos rfl] at h1 h2
        rw [ih bt h1 h2]
      · simp only [charListLe, if_neg hab, decide_eq_true_eq] at h1
        simp only [charListLe, if_neg (Ne.symm hab), decide_eq_true_eq] at h2
        exact absurd h1 (lt_asymm h2)

theorem strLe_total (a b : String) : strLe a b = true ∨ strLe b a = true :=
  charListLe_total a.data b.data

theorem strLe_trans (a b c : String) :
    strLe a b = true → strLe b c = true → strLe a c = true :=
  charListLe_trans a.data b.data c.data

theorem strLe_antisymm (a b : String) (h1 : strLe a b = true) (h2 : strLe b a = true) :
    a = b := by
  have hd := charListLe_antisymm a.data b.data h1 h2
  cases a; cases b; exact congrArg String.mk hd

instance : IsTotal String (fun a b => strLe a b = true) := ⟨strLe_total⟩

instance : IsTrans String (fun a b => strLe a b = true) := ⟨strLe_trans⟩

instance : IsAntisymm String (fun a b => strLe a b = true) := ⟨strLe_antisymm⟩

/-- Sorting the keys of two objects whose key multisets agree yields the
same key list. -/
theorem sortedKeys_perm_eq (xs ys : List (String × JSValue))
    (h : (xs.map Prod.fst).Perm (ys.map Prod.fst)) : sortedKeys xs = sortedKeys ys := by
  have h1 : List.Perm (sortedKeys xs) (xs.map Prod.fst) := List.perm_insertionSort _ _
  have h2 : List.Perm (sortedKeys ys) (ys.map Prod.fst) := List.perm_insertionSort _ _
  have hs1 : List.Sorted (fun a b => strLe a b = true) (sortedKeys xs) :=
    List.sorted_insertionSort _ _
  have hs2 : List.Sorted (fun a b => strLe a b = true) (sortedKeys ys) :=
    List.sorted_insertionSort _ _
  exact List.eq_of_perm_of_sorted (h1.trans (h.trans h2.symm)) hs1 hs2

/-- Property lookup is invariant under reordering of an object with
duplicate-free keys. -/
theorem jsGet_perm : ∀ xs ys : List (String × JSValue), xs.Perm ys →
    (xs.map Prod.fst).Nodup → ∀ k, jsGet xs k = jsGet ys k := by
  intro xs ys h
  induction h with
  | nil => intro _ _; rfl
  | cons e hp ih =>
    intro hnd k
    obtain ⟨ke, ve⟩ := e
    simp only [List.map_cons, List.nodup_cons] at hnd
    simp only [jsGet]
    split
    · rfl
    · exact ih hnd.2 k
  | swap x y l =>
    intro hnd k
    obtain ⟨kx, vx⟩ := x
    obtain ⟨ky, vy⟩ := y
    simp only [List.map_cons, List.nodup_cons, List.mem_cons] at hnd
    have hxy : ky ≠ kx := fun hk => hnd.1 (Or.inl hk)
    simp only [jsGet]
    by_cases h1 : ky == k <;> by_cases h2 : kx == k
    · exact absurd (by rw [beq_iff_eq] at h1 h2; rw [h1, h2]) hxy
    · simp [h1, h2]
    · simp [h1, h2]
    · simp [h1, h2]
  | trans h1 h2 ih1 ih2 =>
    intro hnd k
    rw [ih1 hnd k, ih2 (((h1.map Prod.fst).nodup_iff).mp hnd) k]

/-- Claim C8: deepEqual on config objects is order-independent over
object keys (an object with duplicate-free keys compares equal to any
reordering of itself) and order-dependent over array elements (the
reordered array of 1 and 2 compares unequal). -/
theorem deepEqual_key_order_independent (xs ys : List (String × JSValue))
    (hnd : (xs.map Prod.fst).Nodup) (hperm : xs.Perm ys) :
    deepEqual (.obj xs) (.obj ys) = true ∧
    deepEqual (.arr [.num 1, .num 2]) (.arr [.num 2, .num 1]) = false := by
  constructor
  · rw [deepEqual]
    have hkeys : sortedKeys xs = sortedKeys ys := sortedKeys_perm_eq xs ys (hperm.map Prod.fst)
    rw [hkeys]
    simp only [beq_self_eq_true, Bool.true_and, List.all_eq_true]
    intro k _
    rw [← jsGet_perm xs ys hperm hnd k]
    exact deepEqual_refl _
  · rw [deepEqual]
    simp only [List.length_cons, List.length_nil, beq_self_eq_true, Bool.true_and]
    rw [List.all_eq_false]
    refine ⟨⟨(.num 1, .num 2), List.mem_cons_self _ _⟩, List.mem_attach _ _, ?_⟩
    rw [deepEqual]
    decide

/-- Config for the C8 witness. -/
def configLeft : List (String × JSValue) := [("a", .num 1), ("b", .str "x")]

/-- The same config with its keys in the opposite insertion order. -/
def configRight : List (String × JSValue) := [("b", .str "x"), ("a", .num 1)]

/-- Witness for C8 at a two-key config. -/
theorem deepEqual_key_order_independent_witness :
    (configLeft.map Prod.fst).Nodup ∧
    deepEqual (.obj configLeft) (.obj configRight) = true :=
  ⟨by decide,
    (deepEqual_key_order_independent configLeft configRight (by decide)
      (List.Perm.swap _ _ _)).1⟩

/-! ## Workspace snapshot codec

Embedding of buildTfPayload / parsePlanemgrTf / buildWorkspaceGraph from
the IaC storage source.  JSON objects are modelled as association lists
in JavaScript property order; the locals.planemgr wrapper of the primary
file is elided (the parser unwraps exactly what the builder wraps).
String sorting by localeCompare is modelled by the lexicographic order
strLe, which coincides with it on the identifier alphabets in use.
Unknown extra keys of the metadata file, which both reader and writer
carry through untouched, are not modelled. -/

/-- Persisted node definition inside the primary file. -/
structure PlanemgrNodeDefinition where
  kind : NodeKind
  label : String
  layerId : String
  config : Option (List (String × JSValue))
  deriving DecidableEq

/-- Persisted edge definition inside the primary file. -/
structure PlanemgrEdgeDefinition where
  kind : EdgeKind
  source : String
  target : String
  label : Option String
  deriving DecidableEq

/-- Structured content of the primary tf file (locals.planemgr). -/
structure PlanemgrTfState where
  nodes : List (String × PlanemgrNodeDefinition)
  edges : List (String × PlanemgrEdgeDefinition)
  layers : List Layer
  deriving DecidableEq

/-- Per-node entry of the metadata file. -/
structure NodeMetadata where
  position : Option Position
  drift : Option DriftItem
  deriving DecidableEq

/-- Structured content of the metadata file. -/
structure PlanemgrMetadata where
  nodes : List (String × NodeMetadata)
  deriving DecidableEq

/-- Default position for the first node missing metadata. -/
def DEFAULT_POSITION : Position := ⟨120, 160⟩

/-- Offset applied from the previously placed node for later nodes
missing metadata. -/
def POSITION_OFFSET : Position := ⟨220, 120⟩

/-- JavaScript object property read (first occurrence; real objects have
unique keys). -/
def objGet (m : List (String × α)) (k : String) : Option α :=
  (m.find? fun e => e.1 == k).map Prod.snd

/-- JavaScript object property write: update in place, else append. -/
def objSet : List (String × α) → String → α → List (String × α)
  | [], k, v => [(k, v)]
  | (k1, v1) :: rest, k, v =>
      if k1 == k then (k, v) :: rest else (k1, v1) :: objSet rest k v

/-- Config normalization performed by the encoder: present and non-empty
configs are kept, empty or absent configs are dropped. -/
def normConfig : Option (List (String × JSValue)) → Option (List (String × JSValue))
  | some c => if c.length > 0 then some c else none
  | none => none

/-- Label normalization performed by the encoder: a truthy label is
kept, an absent or empty label is dropped. -/
def normLabel : Option String → Option String
  | some s => if s = "" then none else some s
  | none => none

/-- Node definition written to the primary file for one graph node. -/
def nodeDefinitionOf (node : GraphNode) : PlanemgrNodeDefinition :=
  { kind := node.kind, label := node.label, layerId := node.layerId,
    config := normConfig node.config }

/-- Edge definition written to the primary file for one graph edge. -/
def edgeDefinitionOf (edge : GraphEdge) : PlanemgrEdgeDefinition :=
  { kind := edge.kind, source := edge.source, target := edge.target,
    label := normLabel edge.label }

/-- Nodes sorted by id as the encoder does before serialization. -/
def sortNodesById (nodes : List GraphNode) : List GraphNode :=
  List.insertionSort (fun l r => strLe l.id r.id = true) nodes

/-- Edges sorted by id as the encoder does before serialization. -/
def sortEdgesById (edges : List GraphEdge) : List GraphEdge :=
  List.insertionSort (fun l r => strLe l.id r.id = true) edges

/-- Embedding of buildTfPayload: nodes and edges sorted by id, keyed by
id, with normalized config and label; layers passed through. -/
def buildTfPayload (graph : Graph) (layers : List Layer) : PlanemgrTfState :=
  { nodes := (sortNodesById graph.nodes).map fun node => (node.id, nodeDefinitionOf node),
    edges := (sortEdgesById graph.edges).map fun edge => (edge.id, edgeDefinitionOf edge),
    layers := layers }

/-- Embedding of parseNodeDefinitions: entries whose label or layerId is
empty are dropped (kind validation is enforced by the model types). -/
def parseNodeDefinitions (entries : List (String × PlanemgrNodeDefinition)) :
    List (String × PlanemgrNodeDefinition) :=
  entries.filter fun e => decide (e.2.label ≠ "") && decide (e.2.layerId ≠ "")

/-- Embedding of parseEdgeDefinitions: entries whose source or target is
empty are dropped. -/
def parseEdgeDefinitions (entries : List (String × PlanemgrEdgeDefinition)) :
    List (String × PlanemgrEdgeDefinition) :=
  entries.filter fun e => decide (e.2.source ≠ "") && decide (e.2.target ≠ "")

/-- Embedding of parsePlanemgrTf on a structurally well-formed payload. -/
def parsePlanemgrTf (raw : PlanemgrTfState) : PlanemgrTfState :=
  { nodes := parseNodeDefinitions raw.nodes,
    edges := parseEdgeDefinitions raw.edges,
    layers := raw.layers }

/-- Accumulator state of the node loop of buildWorkspaceGraph. -/
structure BuildState where
  nodesMetadata : List (String × NodeMetadata)
  nodes : List GraphNode
  drift : List (String × DriftItem)
  lastPosition : Option Position
  updated : Bool
  deriving DecidableEq

/-- One iteration of the node loop of buildWorkspaceGraph: resolve or
synthesize the position, resolve or default the drift entry, record the
repairs back into the metadata object, and append the reconstructed
graph node (which carries no size). -/
def buildNodeStep (st : BuildState) (entry : String × PlanemgrNodeDefinition) : BuildState :=
  let id := entry.1
  let definition := entry.2
  let metaEntry := (objGet st.nodesMetadata id).getD ⟨none, none⟩
  let positionIsValid := metaEntry.position.isSome
  let position :=
    match metaEntry.position with
    | some p => p
    | none =>
        match st.lastPosition with
        | some lp => ⟨lp.x + POSITION_OFFSET.x, lp.y + POSITION_OFFSET.y⟩
        | none => DEFAULT_POSITION
  let metaEntry2 :=
    if positionIsValid then metaEntry else { metaEntry with position := some position }
  let updated2 := st.updated || !positionIsValid
  let step :=
    match metaEntry2.drift with
    | some d => (d, metaEntry2, updated2)
    | none =>
        (⟨.unknown, none, none⟩,
          { metaEntry2 with drift := some ⟨DriftStatus.unknown, none, none⟩ }, true)
  { nodesMetadata := objSet st.nodesMetadata id step.2.1,
    nodes := st.nodes ++
      [⟨id, definition.kind, definition.label, definition.layerId, position, none,
        definition.config⟩],
    drift := st.drift ++ [(id, step.1)],
    lastPosition := some position,
    updated := step.2.2 }

/-- Result of buildWorkspaceGraph. -/
structure BuildResult where
  graph : Graph
  drift : List (String × DriftItem)
  metadata : PlanemgrMetadata
  updated : Bool
  deriving DecidableEq

/-- Embedding of buildWorkspaceGraph. -/
def buildWorkspaceGraph (tf : PlanemgrTfState) (metadata : PlanemgrMetadata) : BuildResult :=
  let st := tf.nodes.foldl buildNodeStep ⟨metadata.nodes, [], [], none, false⟩
  let edges := tf.edges.map fun e => (⟨e.1, e.2.kind, e.2.source, e.2.target, e.2.label⟩ : GraphEdge)
  { graph := ⟨st.nodes, edges⟩,
    drift := st.drift,
    metadata := ⟨st.nodesMetadata⟩,
    updated := st.updated }

/-- Decode of the encoded primary file with freshly-defaulted metadata:
the round trip of claim C4. -/
def roundTrip (graph : Graph) (layers : List Layer) : BuildResult :=
  buildWorkspaceGraph (parsePlanemgrTf (buildTfPayload graph layers)) ⟨[]⟩

/-- The node fields that survive the round trip, as read off a decoded
graph node. -/
def nodeView (n : GraphNode) :
    String × NodeKind × String × String × Option (List (String × JSValue)) :=
  (n.id, n.kind, n.label, n.layerId, n.config)

/-- The node fields that survive the round trip, as written by the
encoder for one primary-file entry. -/
def defView (e : String × PlanemgrNodeDefinition) :
    String × NodeKind × String × String × Option (List (String × JSValue)) :=
  (e.1, e.2.kind, e.2.label, e.2.layerId, e.2.config)

/-- Edge fields as read off a decoded edge. -/
def edgeView (e : GraphEdge) : String × EdgeKind × String × String × Option String :=
  (e.id, e.kind, e.source, e.target, e.label)

theorem fold_nodes_map_view (entries : List (String × PlanemgrNodeDefinition)) :
    ∀ init : BuildState,
      ((entries.foldl buildNodeStep init).nodes).map nodeView =
        init.nodes.map nodeView ++ entries.map defView := by
  induction entries with
  | nil => intro init; simp
  | cons e rest ih =>
    intro init
    rw [List.foldl_cons, ih]
    simp [buildNodeStep, nodeView, defView]

theorem fold_nodes_size (entries : List (String × PlanemgrNodeDefinition)) :
    ∀ init : BuildState, ∀ n ∈ (entries.foldl buildNodeStep init).nodes,
      n ∈ init.nodes ∨ n.size = none := by
  induction entries with
  | nil => intro init n hn; exact Or.inl hn
  | cons e rest ih =>
    intro init n hn
    rcases ih (buildNodeStep init e) n hn with hmem | hsz
    · simp only [buildNodeStep, List.mem_append, List.mem_singleton] at hmem
      rcases hmem with h | h
      · exact Or.inl h
      · subst h; exact Or.inr rfl
    · exact Or.inr hsz

/-- Every node produced by the decoder has no size: the primary file does
not persist size at all. -/
theorem buildWorkspaceGraph_size_none (tf : PlanemgrTfState) (metadata : PlanemgrMetadata) :
    ∀ n ∈ (buildWorkspaceGraph tf metadata).graph.nodes, n.size = none := by
  intro n hn
  simp only [buildWorkspaceGraph] at hn
  rcases fold_nodes_size tf.nodes ⟨metadata.nodes, [], [], none, false⟩ n hn with h | h
  · cases h
  · exact h

theorem parse_keeps_payload_nodes (G : Graph) (L : List Layer)
    (hnn : ∀ n ∈ G.nodes, n.label ≠ "" ∧ n.layerId ≠ "") :
    parseNodeDefinitions (buildTfPayload G L).nodes = (buildTfPayload G L).nodes := by
  rw [parseNodeDefinitions, List.filter_eq_self]
  intro e he
  simp only [buildTfPayload, List.mem_map] at he
  rcases he with ⟨n, hn, rfl⟩
  have hmem : n ∈ G.nodes := (List.perm_insertionSort _ _).subset hn
  have := hnn n hmem
  simp [nodeDefinitionOf, this.1, this.2]

theorem parse_keeps_payload_edges (G : Graph) (L : List Layer)
    (hes : ∀ e ∈ G.edges, e.source ≠ "" ∧ e.target ≠ "") :
    parseEdgeDefinitions (buildTfPayload G L).edges = (buildTfPayload G L).edges := by
  rw [parseEdgeDefinitions, List.filter_eq_self]
  intro e he
  simp only [buildTfPayload, List.mem_map] at he
  rcases he with ⟨x, hx, rfl⟩
  have hmem : x ∈ G.edges := (List.perm_insertionSort _ _).subset hx
  have := hes x hmem
  simp [edgeDefinitionOf, this.1, this.2]

/-- Claim C4 (amended): for a valid graph, decoding the encoded primary
file with fresh metadata recovers, as a multiset, every node's id, kind,
label, layerId together with the normalized config (empty config maps to
absent) and every edge's id, kind, source, target together with the
normalized label (empty label maps to absent); decoded nodes carry no
size.  Position and drift are synthesized defaults as the claim grants;
the graph is not recovered up to position and drift alone, since size is
dropped (see the counterexample) and empty configs and labels are
normalized. -/
theorem decode_encode_roundtrip (G : Graph) (L : List Layer)
    (_hnd : (nodeIds G).Nodup) (_hed : (edgeIds G).Nodup)
    (hnn : ∀ n ∈ G.nodes, n.label ≠ "" ∧ n.layerId ≠ "")
    (hes : ∀ e ∈ G.edges, e.source ≠ "" ∧ e.target ≠ "") :
    ((roundTrip G L).graph.nodes.map nodeView).Perm
      (G.nodes.map fun n => (n.id, n.kind, n.label, n.layerId, normConfig n.config)) ∧
    ((roundTrip G L).graph.edges.map edgeView).Perm
      (G.edges.map fun e => (e.id, e.kind, e.source, e.target, normLabel e.label)) ∧
    (∀ n ∈ (roundTrip G L).graph.nodes, n.size = none) := by
  refine ⟨?_, ?_, buildWorkspaceGraph_size_none _ _⟩
  · have hview : (roundTrip G L).graph.nodes.map nodeView =
        (parsePlanemgrTf (buildTfPayload G L)).nodes.map defView := by
      simp only [roundTrip, buildWorkspaceGraph]
      rw [fold_nodes_map_view]
      simp
    rw [hview]
    simp only [parsePlanemgrTf]
    rw [parse_keeps_payload_nodes G L hnn]
    simp only [buildTfPayload, List.map_map]
    have heq : (defView ∘ fun node => (node.id, nodeDefinitionOf node)) =
        fun n : GraphNode => (n.id, n.kind, n.label, n.layerId, normConfig n.config) := rfl
    rw [heq]
    exact (List.perm_insertionSort _ _).map _
  · have hview : (roundTrip G L).graph.edges.map edgeView =
        (parsePlanemgrTf (buildTfPayload G L)).edges.map
          (fun e => (e.1, e.2.kind, e.2.source, e.2.target, e.2.label)) := by
      simp only [roundTrip, buildWorkspaceGraph, List.map_map]
      rfl
    rw [hview]
    simp only [parsePlanemgrTf]
    rw [parse_keeps_payload_edges G L hes]
    simp only [buildTfPayload, List.map_map]
    have heq : ((fun e : String × PlanemgrEdgeDefinition =>
          (e.1, e.2.kind, e.2.source, e.2.target, e.2.label)) ∘
            fun edge => (edge.id, edgeDefinitionOf edge)) =
        fun e : GraphEdge => (e.id, e.kind, e.source, e.target, normLabel e.label) := rfl
    rw [heq]
    exact (List.perm_insertionSort _ _).map _

/-- Witness for the amended C4 at the sample graph. -/
theorem decode_encode_roundtrip_witness :
    ((nodeIds sampleGraph).Nodup ∧ (∀ n ∈ sampleGraph.nodes, n.label ≠ "" ∧ n.layerId ≠ "")) ∧
    ((roundTrip sampleGraph []).graph.nodes.map nodeView).Perm
      (sampleGraph.nodes.map fun n =>
        (n.id, n.kind, n.label, n.layerId, normConfig n.config)) :=
  ⟨⟨by decide, by decide⟩,
    (decode_encode_roundtrip sampleGraph [] (by decide) (by decide) (by decide) (by decide)).1⟩

/-- A platform node carrying a size, for the C4 counterexample. -/
def sizedGraph : Graph :=
  ⟨[⟨"n1", .platform, "Host", "infra", ⟨10, 20⟩, some ⟨100, 50⟩, none⟩], []⟩

/-- Counterexample to C4 as stated: the round trip is not the identity
up to position and drift only — the size field of a platform node is not
recovered (the encoder never persists it), so a field other than
position and drift differs after decode(encode(G, L)). -/
theorem decode_encode_roundtrip_counterexample :
    ((roundTrip sizedGraph []).graph.nodes.map GraphNode.size) = [none] ∧
    sizedGraph.nodes.map GraphNode.size = [some ⟨100, 50⟩] ∧
    ((roundTrip sizedGraph []).graph.nodes.map GraphNode.size) ≠
      sizedGraph.nodes.map GraphNode.size := by
  refine ⟨rfl, rfl, ?_⟩
  intro h
  rw [show ((roundTrip sizedGraph []).graph.nodes.map GraphNode.size) = [none] from rfl] at h
  rw [show sizedGraph.nodes.map GraphNode.size = [some ⟨100, 50⟩] from rfl] at h
  simp at h

/-- Claim C10: a node's size is invisible to the pipeline — (1) two
graphs identical except for node sizes diff to an empty plan, (2) the
primary-file encoding is unchanged by any size change, and (3) decoded
nodes never carry a size. -/
theorem node_size_invisible :
    (∀ (wid : String) (bv : Option String) (current base : Graph),
        (nodeIds base).Nodup → (edgeIds base).Nodup →
        current.nodes.map clearSize = base.nodes.map clearSize →
        current.edges = base.edges →
        (createPlan wid current (some base) bv).operations = []) ∧
    (∀ (G G' : Graph) (L : List Layer),
        G.nodes.map clearSize = G'.nodes.map clearSize →
        G.edges = G'.edges →
        buildTfPayload G L = buildTfPayload G' L) ∧
    (∀ (tf : PlanemgrTfState) (metadata : PlanemgrMetadata),
        ∀ n ∈ (buildWorkspaceGraph tf metadata).graph.nodes, n.size = none) := by
  refine ⟨?_, ?_, buildWorkspaceGraph_size_none⟩
  · intro wid bv current base hn he hnodes hedges
    exact (createPlan_empty_of_view clearSize clearSize_id diffNode_of_clearSize_eq
      wid bv current base hn he hnodes hedges).1
  · intro G G' L hnodes hedges
    have e1 : ∀ zs : List GraphNode,
        (sortNodesById zs).map (fun n => (n.id, nodeDefinitionOf n)) =
          ((sortNodesById zs).map clearSize).map (fun m => (m.id, nodeDefinitionOf m)) := by
      intro zs
      rw [List.map_map]
      rfl
    have e2 : ∀ zs : List GraphNode,
        (sortNodesById zs).map clearSize =
          List.insertionSort (fun a b => strLe a.id b.id = true) (zs.map clearSize) := by
      intro zs
      exact List.map_insertionSort _ (fun a b => strLe a.id b.id = true) clearSize zs
        (fun a _ b _ => Iff.rfl)
    simp only [buildTfPayload, PlanemgrTfState.mk.injEq]
    refine ⟨?_, ?_, trivial⟩
    · rw [e1 G.nodes, e1 G'.nodes, e2 G.nodes, e2 G'.nodes, hnodes]
    · rw [hedges]

/-- Witness for C10: a size change on the platform node is invisible to
the diff and to the encoder, and decode yields no size. -/
theorem node_size_invisible_witness :
    ((⟨[⟨"n1", .platform, "Host", "infra", ⟨10, 20⟩, some ⟨300, 200⟩, none⟩], []⟩ : Graph).nodes.map
        clearSize = sizedGraph.nodes.map clearSize) ∧
    (createPlan "ws" ⟨[⟨"n1", .platform, "Host", "infra", ⟨10, 20⟩, some ⟨300, 200⟩, none⟩], []⟩
        (some sizedGraph) none).operations = [] ∧
    buildTfPayload ⟨[⟨"n1", .platform, "Host", "infra", ⟨10, 20⟩, some ⟨300, 200⟩, none⟩], []⟩ []
      = buildTfPayload sizedGraph [] :=
  ⟨rfl,
    node_size_invisible.1 "ws" none
      ⟨[⟨"n1", .platform, "Host", "infra", ⟨10, 20⟩, some ⟨300, 200⟩, none⟩], []⟩ sizedGraph
      (by decide) (by decide) rfl rfl,
    node_size_invisible.2.1
      ⟨[⟨"n1", .platform, "Host", "infra", ⟨10, 20⟩, some ⟨300, 200⟩, none⟩], []⟩ sizedGraph []
      rfl rfl⟩

/-! ## IacStorage draft-commit state machine

The git repository backing IacStorage is modelled as an explicit state:
the list of commits (newest first) plus the working contents of the two
workspace files.  Each commit snapshots the two files and carries its
subject line.  Two states have the same HEAD hash exactly when their
commit lists agree (an amend replaces the head commit and therefore
changes the hash).  File contents are compared structurally, which
matches byte comparison because the serializers are deterministic. -/

/-- Subject line of draft commits. -/
def DRAFT_SUBJECT : String := "Draft: workspace"

/-- Default layers seeded by the domain package. -/
def DEFAULT_LAYERS : List Layer :=
  [⟨"physical", "Physical", "#f2c879", true, 1⟩,
   ⟨"infra", "Infrastructure", "#ffb454", true, 2⟩,
   ⟨"control", "Control", "#7cc4ff", true, 3⟩,
   ⟨"service", "Services", "#f37cc1", true, 4⟩]

/-- Working-tree contents of the two workspace files. -/
structure WorkFiles where
  tf : PlanemgrTfState
  meta : PlanemgrMetadata
  deriving DecidableEq

/-- A commit: snapshot of the two workspace files plus the subject (the
body is a fixed constant; no claim observes it). -/
structure Commit where
  files : WorkFiles
  subject : String
  deriving DecidableEq

/-- Repository state. -/
structure RepoState where
  commits : List Commit
  work : WorkFiles
  deriving DecidableEq

/-- A subject marks a draft commit when it trims to the sentinel. -/
def isDraftSubject (s : String) : Bool := strTrim s == DRAFT_SUBJECT

/-- HEAD commit, if any. -/
def headCommit (s : RepoState) : Option Commit := s.commits.head?

/-- Embedding of isDraftHead. -/
def isDraftHead (s : RepoState) : Bool :=
  match s.commits.head? with
  | some c => isDraftSubject c.subject
  | none => false

/-- Embedding of isWorkingTreeDirty: the two tracked files differ from
HEAD (with no commits, freshly written files always show as dirty). -/
def isWorkingTreeDirty (s : RepoState) : Bool :=
  match s.commits.head? with
  | some c => decide (s.work ≠ c.files)
  | none => true

/-- Embedding of commitDraft: stage the two files and commit with the
draft subject, amending in place when HEAD is already a draft. -/
def commitDraft (s : RepoState) : RepoState :=
  if isDraftHead s then
    { s with commits := ⟨s.work, DRAFT_SUBJECT⟩ :: s.commits.tail }
  else
    { s with commits := ⟨s.work, DRAFT_SUBJECT⟩ :: s.commits }

/-- Embedding of ensureDraftCommit. -/
def ensureDraftCommit (s : RepoState) : RepoState :=
  if isWorkingTreeDirty s then commitDraft s else s

/-- Input of updateWorkspace (an absent drift map is the empty list). -/
structure WorkspaceUpdateInput where
  graph : Graph
  layers : List Layer
  drift : List (String × DriftItem)
  deriving DecidableEq

/-- Metadata rewrite for one node of the input graph: store its position
and, when the input carries a drift entry for it, its drift. -/
def updateNodeMeta (drift : List (String × DriftItem)) (meta : List (String × NodeMetadata))
    (node : GraphNode) : List (String × NodeMetadata) :=
  let entry := (objGet meta node.id).getD ⟨none, none⟩
  let entry2 := { entry with position := some node.position }
  let entry3 :=
    match objGet drift node.id with
    | some d => { entry2 with drift := some d }
    | none => entry2
  objSet meta node.id entry3

/-- The metadata file written by updateWorkspace. -/
def updateWorkspaceMeta (existing : PlanemgrMetadata) (input : WorkspaceUpdateInput) :
    PlanemgrMetadata :=
  ⟨input.graph.nodes.foldl (updateNodeMeta input.drift) existing.nodes⟩

/-- The loadWorkspace read: parse the primary file, substitute default
layers when none are stored, and rebuild the workspace. -/
def loadResult (s : RepoState) : BuildResult :=
  let tf := parsePlanemgrTf s.work.tf
  let layers := if tf.layers.isEmpty then DEFAULT_LAYERS else tf.layers
  buildWorkspaceGraph ⟨tf.nodes, tf.edges, layers⟩ s.work.meta

/-- Embedding of the getWorkspace call at the end of updateWorkspace: it
re-reads and parses the primary file, rebuilds the workspace, and writes
the repaired metadata back when the codec had to repair it (self-healing
read).  Only the working metadata file can change; commits never do. -/
def getWorkspaceStep (s : RepoState) : RepoState :=
  if (loadResult s).updated then { s with work := ⟨s.work.tf, (loadResult s).metadata⟩ }
  else s

/-- Embedding of updateWorkspace: write both files, ensure a draft commit
when the working tree is dirty, then re-read the workspace. -/
def updateWorkspace (s : RepoState) (input : WorkspaceUpdateInput) : RepoState :=
  let tf := buildTfPayload input.graph input.layers
  let meta := updateWorkspaceMeta s.work.meta input
  getWorkspaceStep (ensureDraftCommit { s with work := ⟨tf, meta⟩ })

/-- Update input for the C5 counterexample: one node, no drift entry. -/
def noDriftInput : WorkspaceUpdateInput :=
  ⟨⟨[⟨"n1", .compute, "Web", "infra", ⟨10, 20⟩, none, none⟩], []⟩, [], []⟩

/-- Fresh repository state: no commits, empty files. -/
def freshRepoState : RepoState := ⟨[], ⟨⟨[], [], []⟩, ⟨[]⟩⟩⟩

/-- Counterexample to C5 as stated: calling updateWorkspace twice with
the identical input is not a no-op for every input.  When the input
carries no drift entry for a node, the post-save getWorkspace repairs
the metadata (adding the default drift) after the draft commit, leaving
the tree dirty; the second call therefore amends the draft, and the HEAD
commit after the second call differs from the HEAD after the first. -/
theorem updateWorkspace_second_call_moves_head :
    headCommit (updateWorkspace (updateWorkspace freshRepoState noDriftInput) noDriftInput) ≠
      headCommit (updateWorkspace freshRepoState noDriftInput) := by decide

theorem objGet_cons (k1 : String) (v1 : α) (rest : List (String × α)) (k : String) :
    objGet ((k1, v1) :: rest) k = if k1 == k then some v1 else objGet rest k := by
  by_cases h : (k1 == k) = true
  · unfold objGet
    rw [List.find?_cons_of_pos _ (by simpa using h), if_pos h]
    rfl
  · unfold objGet
    rw [List.find?_cons_of_neg _ (by simpa using h), if_neg h]

theorem objSet_self (m : List (String × α)) (k : String) (v : α)
    (h : objGet m k = some v) : objSet m k v = m := by
  induction m with
  | nil => simp [objGet] at h
  | cons e rest ih =>
    obtain ⟨k1, v1⟩ := e
    rw [objGet_cons] at h
    by_cases hk : (k1 == k) = true
    · rw [if_pos hk] at h
      have hv : v1 = v := by simpa using h
      have hks : k1 = k := by simpa using hk
      simp [objSet, hk, hv, hks]
    · rw [if_neg hk] at h
      simp only [objSet]
      rw [if_neg hk, ih h]

theorem objGet_objSet_self (m : List (String × α)) (k : String) (v : α) :
    objGet (objSet m k v) k = some v := by
  induction m with
  | nil => simp [objSet, objGet_cons]
  | cons e rest ih =>
    obtain ⟨k1, v1⟩ := e
    by_cases hk : (k1 == k) = true
    · simp [objSet, hk, objGet_cons]
    · simp only [objSet]
      rw [if_neg hk, objGet_cons, if_neg hk]
      exact ih

theorem objGet_objSet_ne (m : List (String × α)) (k k2 : String) (v : α)
    (h : k2 ≠ k) : objGet (objSet m k2 v) k = objGet m k := by
  induction m with
  | nil =>
    simp only [objSet, objGet_cons]
    rw [if_neg (by simpa using h)]
  | cons e rest ih =>
    obtain ⟨k1, v1⟩ := e
    by_cases hk : (k1 == k2) = true
    · have hks : k1 = k2 := by simpa using hk
      simp only [objSet]
      rw [if_pos hk, objGet_cons, objGet_cons,
        if_neg (by simpa using h), if_neg (by simp [hks]; exact h)]
    · simp only [objSet]
      rw [if_neg hk, objGet_cons, objGet_cons, ih]

theorem foldUpdate_objGet_notin (drift : List (String × DriftItem)) (ns : List GraphNode)
    (k : String) (h : ∀ n ∈ ns, n.id ≠ k) :
    ∀ meta, objGet (ns.foldl (updateNodeMeta drift) meta) k = objGet meta k := by
  induction ns with
  | nil => intro meta; rfl
  | cons n rest ih =>
    intro meta
    rw [List.foldl_cons, ih (fun x hx => h x (List.mem_cons_of_mem _ hx))]
    simp only [updateNodeMeta]
    exact objGet_objSet_ne _ _ _ _ (h n (List.mem_cons_self _ _))

theorem updateMeta_lookup (drift : List (String × DriftItem)) :
    ∀ ns : List GraphNode, (ns.map GraphNode.id).Nodup →
      ∀ meta, ∀ n ∈ ns, ∃ e : NodeMetadata,
        objGet (ns.foldl (updateNodeMeta drift) meta) n.id = some e ∧
        e.position = some n.position ∧
        (∀ d, objGet drift n.id = some d → e.drift = some d) := by
  intro ns
  induction ns with
  | nil => intro _ meta n hn; cases hn
  | cons n0 rest ih =>
    intro hnd meta n hn
    simp only [List.map_cons, List.nodup_cons] at hnd
    rw [List.foldl_cons]
    rcases List.mem_cons.mp hn with rfl | hr
    · have hne : ∀ m ∈ rest, m.id ≠ n.id := by
        intro m hm heq
        exact hnd.1 (heq ▸ List.mem_map_of_mem GraphNode.id hm)
      rw [foldUpdate_objGet_notin drift rest n.id hne]
      simp only [updateNodeMeta]
      rw [objGet_objSet_self]
      refine ⟨_, rfl, ?_, ?_⟩
      · cases hdr : objGet drift n.id <;> simp [hdr]
      · intro d hd
        simp [hd]
    · exact ih hnd.2 (updateNodeMeta drift meta n0) n hr

theorem foldl_fixpoint {α β : Type} (f : α → β → α) (m : α) :
    ∀ ns : List β, (∀ n ∈ ns, f m n = m) → ns.foldl f m = m := by
  intro ns
  induction ns with
  | nil => intro _; rfl
  | cons n rest ih =>
    intro h
    rw [List.foldl_cons, h n (List.mem_cons_self _ _)]
    exact ih fun x hx => h x (List.mem_cons_of_mem _ hx)

/-- Rewriting the metadata a second time with the same input changes
nothing (valid graphs: duplicate-free node ids). -/
theorem updateWorkspaceMeta_idem (meta : PlanemgrMetadata) (input : WorkspaceUpdateInput)
    (hnd : (nodeIds input.graph).Nodup) :
    updateWorkspaceMeta (updateWorkspaceMeta meta input) input =
      updateWorkspaceMeta meta input := by
  unfold updateWorkspaceMeta
  congr 1
  apply foldl_fixpoint
  intro n hn
  rcases updateMeta_lookup input.drift input.graph.nodes hnd meta.nodes n hn with
    ⟨e, hget, hpos, hdr⟩
  cases hd : objGet input.drift n.id with
  | none =>
    simp only [updateNodeMeta, hget, Option.getD_some, hd]
    rw [← hpos]
    exact objSet_self _ _ _ hget
  | some d =>
    simp only [updateNodeMeta, hget, Option.getD_some, hd]
    rw [← hpos, ← hdr d hd]
    exact objSet_self _ _ _ hget

/-- One decoder step on a node whose metadata entry is complete: nothing
is repaired and the metadata entry is rewritten unchanged. -/
theorem buildNodeStep_complete (st : BuildState) (e : String × PlanemgrNodeDefinition)
    (me : NodeMetadata) (p : Position) (d : DriftItem)
    (hget : objGet st.nodesMetadata e.1 = some me)
    (hp : me.position = some p) (hd : me.drift = some d) :
    buildNodeStep st e =
      { nodesMetadata := objSet st.nodesMetadata e.1 me,
        nodes := st.nodes ++
          [⟨e.1, e.2.kind, e.2.label, e.2.layerId, p, none, e.2.config⟩],
        drift := st.drift ++ [(e.1, d)],
        lastPosition := some p,
        updated := st.updated } := by
  simp only [buildNodeStep]
  rw [hget]
  simp [hp, hd]

/-- The decoder loop performs no repair, and leaves the metadata object
untouched, when every entry already has a valid position and drift. -/
theorem build_no_repair (meta : List (String × NodeMetadata)) :
    ∀ entries : List (String × PlanemgrNodeDefinition),
      (∀ e ∈ entries, ∃ me : NodeMetadata, objGet meta e.1 = some me ∧
        me.position.isSome = true ∧ me.drift.isSome = true) →
      ∀ st : BuildState, st.nodesMetadata = meta → st.updated = false →
        (entries.foldl buildNodeStep st).nodesMetadata = meta ∧
        (entries.foldl buildNodeStep st).updated = false := by
  intro entries
  induction entries with
  | nil => intro _ st h1 h2; exact ⟨h1, h2⟩
  | cons e rest ih =>
    intro h st h1 h2
    rcases h e (List.mem_cons_self _ _) with ⟨me, hget, hposS, hdrS⟩
    rcases Option.isSome_iff_exists.mp hposS with ⟨p, hp⟩
    rcases Option.isSome_iff_exists.mp hdrS with ⟨d, hd⟩
    rw [List.foldl_cons, buildNodeStep_complete st e me p d (by rw [h1]; exact hget) hp hd]
    apply ih (fun x hx => h x (List.mem_cons_of_mem _ hx))
    · show objSet st.nodesMetadata e.1 me = meta
      rw [h1]
      exact objSet_self _ _ _ hget
    · exact h2

theorem getWorkspaceStep_commits (t : RepoState) :
    (getWorkspaceStep t).commits = t.commits := by
  unfold getWorkspaceStep
  split <;> rfl

theorem getWorkspaceStep_work_tf (t : RepoState) :
    (getWorkspaceStep t).work.tf = t.work.tf := by
  unfold getWorkspaceStep
  split <;> rfl

theorem commitDraft_work (s : RepoState) : (commitDraft s).work = s.work := by
  unfold commitDraft
  split <;> rfl

theorem ensureDraftCommit_work (s : RepoState) : (ensureDraftCommit s).work = s.work := by
  unfold ensureDraftCommit
  split
  · exact commitDraft_work s
  · rfl

theorem isWorkingTreeDirty_ensure (s : RepoState) :
    isWorkingTreeDirty (ensureDraftCommit s) = false := by
  unfold ensureDraftCommit
  by_cases h : isWorkingTreeDirty s = true
  · rw [if_pos h]
    by_cases h2 : isDraftHead s = true <;>
      simp [commitDraft, isWorkingTreeDirty, h2]
  · rw [if_neg h]
    simpa using h

theorem ensureDraftCommit_of_clean (s : RepoState) (h : isWorkingTreeDirty s = false) :
    ensureDraftCommit s = s := by
  unfold ensureDraftCommit
  simp [h]

theorem payload_nodes_ids (g : Graph) (L : List Layer)
    (e : String × PlanemgrNodeDefinition)
    (he : e ∈ (parsePlanemgrTf (buildTfPayload g L)).nodes) : ∃ n ∈ g.nodes, e.1 = n.id := by
  simp only [parsePlanemgrTf, parseNodeDefinitions] at he
  have hmem := List.mem_of_mem_filter he
  simp only [buildTfPayload, List.mem_map] at hmem
  rcases hmem with ⟨n, hn, rfl⟩
  exact ⟨n, (List.perm_insertionSort _ _).subset hn, rfl⟩

/-- getWorkspace rewrites nothing when every node of the parsed primary
file already has complete metadata. -/
theorem getWorkspaceStep_no_repair (t : RepoState)
    (h : ∀ e ∈ (parsePlanemgrTf t.work.tf).nodes, ∃ me : NodeMetadata,
      objGet t.work.meta.nodes e.1 = some me ∧
      me.position.isSome = true ∧ me.drift.isSome = true) :
    getWorkspaceStep t = t := by
  have hb := build_no_repair t.work.meta.nodes (parsePlanemgrTf t.work.tf).nodes h
    ⟨t.work.meta.nodes, [], [], none, false⟩ rfl rfl
  have hupd : (loadResult t).updated = false := hb.2
  unfold getWorkspaceStep
  rw [hupd]
  simp

/-- Claim C5 (amended): when the input's drift map carries an entry for
every node of the graph (and the graph is valid), a second
updateWorkspace call with unchanged content is a complete no-op: the
whole repository state, in particular the commit list and therefore the
HEAD hash, is unchanged.  Without full drift coverage the claim fails
(see the counterexample): the self-healing metadata repair of the
post-commit getWorkspace leaves the tree dirty and the second call
amends the draft commit. -/
theorem updateWorkspace_noop_idempotent (s : RepoState) (input : WorkspaceUpdateInput)
    (hnd : (nodeIds input.graph).Nodup)
    (hcov : ∀ n ∈ input.graph.nodes, (objGet input.drift n.id).isSome = true) :
    updateWorkspace (updateWorkspace s input) input = updateWorkspace s input ∧
    (updateWorkspace (updateWorkspace s input) input).commits =
      (updateWorkspace s input).commits := by
  have hstep : ∀ (t : RepoState) (meta : PlanemgrMetadata),
      t.work = ⟨buildTfPayload input.graph input.layers, updateWorkspaceMeta meta input⟩ →
      getWorkspaceStep t = t := by
    intro t meta hw
    apply getWorkspaceStep_no_repair
    intro e he
    rw [hw] at he ⊢
    rcases payload_nodes_ids input.graph input.layers e he with ⟨n, hn, hid⟩
    rcases updateMeta_lookup input.drift input.graph.nodes hnd meta.nodes n hn with
      ⟨me, hget, hpos, hdr⟩
    refine ⟨me, ?_, ?_, ?_⟩
    · rw [hid]; exact hget
    · rw [hpos]; rfl
    · rcases Option.isSome_iff_exists.mp (hcov n hn) with ⟨d, hd⟩
      rw [hdr d hd]; rfl
  have hueq : ∀ t : RepoState, updateWorkspace t input = getWorkspaceStep (ensureDraftCommit
      ⟨t.commits, ⟨buildTfPayload input.graph input.layers,
        updateWorkspaceMeta t.work.meta input⟩⟩) := fun t => rfl
  have hu1 : updateWorkspace s input =
      ensureDraftCommit ⟨s.commits, ⟨buildTfPayload input.graph input.layers,
        updateWorkspaceMeta s.work.meta input⟩⟩ := by
    rw [hueq s]
    exact hstep _ s.work.meta (ensureDraftCommit_work _)
  have hwork1 : (updateWorkspace s input).work =
      ⟨buildTfPayload input.graph input.layers, updateWorkspaceMeta s.work.meta input⟩ := by
    rw [hu1]
    exact ensureDraftCommit_work _
  have hm2 : updateWorkspaceMeta (updateWorkspace s input).work.meta input =
      updateWorkspaceMeta s.work.meta input := by
    rw [hwork1]
    exact updateWorkspaceMeta_idem s.work.meta input hnd
  have hstate : (⟨(updateWorkspace s input).commits,
      ⟨buildTfPayload input.graph input.layers,
        updateWorkspaceMeta (updateWorkspace s input).work.meta input⟩⟩ : RepoState)
      = updateWorkspace s input := by
    rw [hm2, ← hwork1]
  have hclean : isWorkingTreeDirty (updateWorkspace s input) = false := by
    rw [hu1]
    exact isWorkingTreeDirty_ensure _
  have hmain : updateWorkspace (updateWorkspace s input) input = updateWorkspace s input := by
    rw [hueq (updateWorkspace s input), hstate, ensureDraftCommit_of_clean _ hclean]
    exact hstep _ s.work.meta hwork1
  exact ⟨hmain, by rw [hmain]⟩

/-- Update input with full drift coverage, for the C5 witness. -/
def coveredInput : WorkspaceUpdateInput :=
  ⟨⟨[⟨"n1", .compute, "Web", "infra", ⟨10, 20⟩, none, none⟩], []⟩, [],
    [("n1", ⟨.unknown, none, none⟩)]⟩

/-- Witness for the amended C5: with a drift entry for the only node,
the second identical save leaves the commit list unchanged. -/
theorem updateWorkspace_noop_idempotent_witness :
    ((nodeIds coveredInput.graph).Nodup ∧
      (∀ n ∈ coveredInput.graph.nodes, (objGet coveredInput.drift n.id).isSome = true)) ∧
    (updateWorkspace (updateWorkspace freshRepoState coveredInput) coveredInput).commits =
      (updateWorkspace freshRepoState coveredInput).commits :=
  ⟨⟨by decide, by decide⟩,
    (updateWorkspace_noop_idempotent freshRepoState coveredInput (by decide) (by decide)).2⟩

/-- Committing a draft on a repository whose non-HEAD commits are not
drafts yields a draft at HEAD and still no drafts below it (amend in
place when HEAD was a draft, a fresh commit otherwise). -/
theorem commitDraft_commits_shape (t : RepoState)
    (hinv : ∀ c ∈ t.commits.tail, isDraftSubject c.subject = false) :
    ∃ rest, (commitDraft t).commits = ⟨t.work, DRAFT_SUBJECT⟩ :: rest ∧
      ∀ c ∈ rest, isDraftSubject c.subject = false := by
  unfold commitDraft
  by_cases h : isDraftHead t = true
  · rw [if_pos h]
    exact ⟨t.commits.tail, rfl, hinv⟩
  · rw [if_neg h]
    refine ⟨t.commits, rfl, ?_⟩
    intro c hc
    cases hcm : t.commits with
    | nil => rw [hcm] at hc; cases hc
    | cons c0 rest0 =>
      rw [hcm] at hc
      rcases List.mem_cons.mp hc with rfl | hcr
      · unfold isDraftHead at h
        rw [hcm] at h
        simpa using h
      · apply hinv
        rw [hcm]
        exact hcr

theorem clean_head_files (t : RepoState) (h : isWorkingTreeDirty t = false) :
    ∃ c, t.commits.head? = some c ∧ c.files = t.work := by
  unfold isWorkingTreeDirty at h
  cases hcm : t.commits.head? with
  | none => rw [hcm] at h; cases h
  | some c =>
    rw [hcm] at h
    simp only [decide_eq_false_iff_not, ne_eq, not_not] at h
    exact ⟨c, rfl, h.symm⟩

theorem subject_beq_isDraft (c : Commit) (h : (c.subject == DRAFT_SUBJECT) = true) :
    isDraftSubject c.subject = true := by
  have hs : c.subject = DRAFT_SUBJECT := by simpa using h
  rw [hs]
  decide

/-- Shape of the commit list after one updateWorkspace call that finds a
dirty tree: a fresh or amended draft at HEAD, no drafts below. -/
theorem updateWorkspace_commits_shape (u : RepoState) (i : WorkspaceUpdateInput)
    (K1 : ∀ c ∈ u.commits.tail, isDraftSubject c.subject = false)
    (c1 : Commit) (Khead : u.commits.head? = some c1)
    (Ktf : c1.files.tf ≠ buildTfPayload i.graph i.layers) :
    ∃ rest, (updateWorkspace u i).commits =
      ⟨⟨buildTfPayload i.graph i.layers, updateWorkspaceMeta u.work.meta i⟩,
        DRAFT_SUBJECT⟩ :: rest ∧
      ∀ c ∈ rest, isDraftSubject c.subject = false := by
  have hueq : updateWorkspace u i = getWorkspaceStep (ensureDraftCommit
      ⟨u.commits, ⟨buildTfPayload i.graph i.layers, updateWorkspaceMeta u.work.meta i⟩⟩) := rfl
  rw [hueq, getWorkspaceStep_commits]
  have hdirty : isWorkingTreeDirty
      ⟨u.commits, ⟨buildTfPayload i.graph i.layers, updateWorkspaceMeta u.work.meta i⟩⟩
        = true := by
    unfold isWorkingTreeDirty
    rw [show (⟨u.commits, ⟨buildTfPayload i.graph i.layers,
        updateWorkspaceMeta u.work.meta i⟩⟩ : RepoState).commits = u.commits from rfl, Khead]
    simp only [decide_eq_true_eq]
    intro heq
    exact Ktf (by rw [← heq])
  unfold ensureDraftCommit
  rw [if_pos hdirty]
  exact commitDraft_commits_shape _ K1

/-- Facts about the repository after the first updateWorkspace call: no
drafts below HEAD, and HEAD exists and stores the first payload. -/
theorem updateWorkspace_first_call_facts (s : RepoState) (i1 : WorkspaceUpdateInput)
    (hinv : ∀ c ∈ s.commits.tail, isDraftSubject c.subject = false) :
    (∀ c ∈ (updateWorkspace s i1).commits.tail, isDraftSubject c.subject = false) ∧
    ∃ c1, (updateWorkspace s i1).commits.head? = some c1 ∧
      c1.files.tf = buildTfPayload i1.graph i1.layers := by
  have hueq : updateWorkspace s i1 = getWorkspaceStep (ensureDraftCommit
      ⟨s.commits, ⟨buildTfPayload i1.graph i1.layers,
        updateWorkspaceMeta s.work.meta i1⟩⟩) := rfl
  rw [hueq, getWorkspaceStep_commits]
  unfold ensureDraftCommit
  by_cases hd : isWorkingTreeDirty ⟨s.commits, ⟨buildTfPayload i1.graph i1.layers,
      updateWorkspaceMeta s.work.meta i1⟩⟩ = true
  · rw [if_pos hd]
    rcases commitDraft_commits_shape ⟨s.commits, ⟨buildTfPayload i1.graph i1.layers,
        updateWorkspaceMeta s.work.meta i1⟩⟩ hinv with ⟨rest, hshape, hrest⟩
    rw [hshape]
    refine ⟨?_, ⟨⟨⟨buildTfPayload i1.graph i1.layers,
        updateWorkspaceMeta s.work.meta i1⟩, DRAFT_SUBJECT⟩, by simp, rfl⟩⟩
    intro c hc2
    exact hrest c (by simpa using hc2)
  · rw [if_neg hd]
    rcases clean_head_files ⟨s.commits, ⟨buildTfPayload i1.graph i1.layers,
        updateWorkspaceMeta s.work.meta i1⟩⟩ (by simpa using hd) with ⟨c, hhead, hfiles⟩
    refine ⟨hinv, ⟨c, hhead, ?_⟩⟩
    rw [hfiles]

/-- Claim C6: starting from a repository whose non-HEAD history contains
no draft commits, two updateWorkspace calls with different serialized
graphs leave exactly one commit whose subject is the draft sentinel, and
it is at HEAD: the second save amends the draft in place rather than
appending a second one. -/
theorem updateWorkspace_draft_amend (s : RepoState) (i1 i2 : WorkspaceUpdateInput)
    (hinv : ∀ c ∈ s.commits.tail, isDraftSubject c.subject = false)
    (hdiff : buildTfPayload i2.graph i2.layers ≠ buildTfPayload i1.graph i1.layers) :
    (((updateWorkspace (updateWorkspace s i1) i2).commits.filter
        fun c => c.subject == DRAFT_SUBJECT).length = 1) ∧
    ((updateWorkspace (updateWorkspace s i1) i2).commits.head?.map Commit.subject
        = some DRAFT_SUBJECT) := by
  rcases updateWorkspace_first_call_facts s i1 hinv with ⟨K1, c1, Khead, Ktf⟩
  rcases updateWorkspace_commits_shape (updateWorkspace s i1) i2 K1 c1 Khead
      (by rw [Ktf]; exact fun h => hdiff h.symm) with ⟨rest2, hshape2, hrest2⟩
  rw [hshape2]
  constructor
  · rw [List.filter_cons_of_pos (by simp)]
    have hnil : (rest2.filter fun c => c.subject == DRAFT_SUBJECT) = [] := by
      rw [List.filter_eq_nil_iff]
      intro c hc hbeq
      have := subject_beq_isDraft c hbeq
      rw [hrest2 c hc] at this
      cases this
    rw [hnil]
    rfl
  · simp

/-- Second update input for the C6 witness: a different node label, so
the serialized payload differs. -/
def secondInput : WorkspaceUpdateInput :=
  ⟨⟨[⟨"n1", .compute, "Web v2", "infra", ⟨10, 20⟩, none, none⟩], []⟩, [], []⟩

/-- Witness for C6 on a fresh repository. -/
theorem updateWorkspace_draft_amend_witness :
    ((∀ c ∈ freshRepoState.commits.tail, isDraftSubject c.subject = false) ∧
      buildTfPayload secondInput.graph secondInput.layers ≠
        buildTfPayload noDriftInput.graph noDriftInput.layers) ∧
    (((updateWorkspace (updateWorkspace freshRepoState noDriftInput) secondInput).commits.filter
        fun c => c.subject == DRAFT_SUBJECT).length = 1) :=
  ⟨⟨by simp [freshRepoState], by decide⟩,
    (updateWorkspace_draft_amend freshRepoState noDriftInput secondInput
      (by simp [freshRepoState]) (by decide)).1⟩

/-! ## Chart repository (Go, go-git object model)

Embedding of WriteChartFiles / cleanChartPath / ListChartTree from
internal/server/chart/git.go, plus the input validation of HandleChartPut
from internal/server/chart.go.  The object storer is modelled as the list
of objects in write order and a hash is the index of the object in that
list; content-addressed deduplication of identical objects is not
modelled because no claim depends on it.  A single branch (main) is
modelled, with HEAD symbolic to it, matching a repository created by
initBareRepo. -/

/-- Git object: blob, tree (entry = name, is-directory flag, child
hash), or commit. -/
inductive GitObj where
  | blob (content : String)
  | tree (entries : List (String × Bool × Nat))
  | commitObj (treeHash : Nat) (parent : Option Nat) (message : String)
  deriving DecidableEq

/-- Chart repository: object store plus the main branch ref. -/
structure ChartRepo where
  objs : List GitObj
  mainRef : Option Nat
  deriving DecidableEq

/-- Errors of the chart layer.  invalidPath and pathIsDirectory embed
ErrInvalidPath and ErrPathIsDirectory; the three Required errors embed
the 400 responses of HandleChartPut; internalErr stands for object-store
failures that cannot arise on well-formed states. -/
inductive ChartErr where
  | invalidPath | pathIsDirectory | messageRequired | filesRequired | filePathRequired
  | internalErr
  deriving DecidableEq

/-- One file write of a batch. -/
structure FileUpdate where
  path : String
  content : String
  deriving DecidableEq

/-- A freshly created chart repository: no objects, no commits. -/
def freshChartRepo : ChartRepo := ⟨[], none⟩

/-- Go path.Clean on a relative path, on character lists: drop empty and
dot segments, resolve dot-dot against the stack. -/
def pathCleanRel (p : List Char) : List Char :=
  let stack := (splitChars '/' p).foldl
    (fun acc seg =>
      if seg = [] ∨ seg = ['.'] then acc
      else if seg = ['.', '.'] then
        match acc with
        | [] => [['.', '.']]
        | top :: rest => if top = ['.', '.'] then seg :: acc else rest
      else seg :: acc)
    []
  match stack with
  | [] => ['.']
  | _ => joinChars '/' stack.reverse

/-- Embedding of cleanChartPath: reject empty and absolute paths, clean,
then reject paths that stay at or escape the root. -/
def cleanChartPath (filePath : String) : Except ChartErr String :=
  if filePath == "" then .error .invalidPath
  else if filePath.data.head? = some '/' then .error .invalidPath
  else
    let cp := pathCleanRel filePath.data
    if cp = ['.'] ∨ cp = ['/'] ∨ cp.take 3 = ['.', '.', '/'] ∨ cp = ['.', '.'] then
      .error .invalidPath
    else .ok (String.mk cp)

/-- Store a blob, returning its hash. -/
def writeBlob (repo : ChartRepo) (contents : String) : ChartRepo × Nat :=
  ({ repo with objs := repo.objs ++ [.blob contents] }, repo.objs.length)

/-- Read a tree object back from the store. -/
def getTreeEntries (repo : ChartRepo) (h : Nat) :
    Except ChartErr (List (String × Bool × Nat)) :=
  match repo.objs[h]? with
  | some (.tree es) => .ok es
  | _ => .error .internalErr

/-- Git tree-entry sort key: directory names compare with a trailing
slash (TreeEntrySorter). -/
def treeSortKey (e : String × Bool × Nat) : List Char :=
  e.1.data ++ (if e.2.1 then ['/'] else [])

/-- Sort tree entries as git requires. -/
def sortTreeEntries (es : List (String × Bool × Nat)) : List (String × Bool × Nat) :=
  List.insertionSort (fun a b => charListLe (treeSortKey a) (treeSortKey b) = true) es

/-- Embedding of writeTree: insert a blob at a slash-separated path into
a base tree, failing when a path segment collides with an existing entry
of the wrong kind; every rebuilt tree level is stored.  On an error
nothing has been stored by this call (each level stores only after its
child succeeded, and all error checks precede the recursion). -/
def writeTree (repo : ChartRepo) (tree : List (String × Bool × Nat)) (parts : List String)
    (blobHash : Nat) : Except ChartErr (ChartRepo × Nat) :=
  match parts with
  | [] => .error .invalidPath
  | name :: restParts =>
    let entries0 := tree.filter fun e => !(e.1 == name)
    let existing := tree.find? fun e => e.1 == name
    if restParts.isEmpty then
      match existing with
      | some (_, true, _) => .error .pathIsDirectory
      | _ =>
        let entries := sortTreeEntries (entries0 ++ [(name, false, blobHash)])
        .ok ({ repo with objs := repo.objs ++ [.tree entries] }, repo.objs.length)
    else
      match existing with
      | some (_, false, _) => .error .pathIsDirectory
      | some (_, true, childHash) =>
        match getTreeEntries repo childHash with
        | .error e => .error e
        | .ok childEntries =>
          match writeTree repo childEntries restParts blobHash with
          | .error e => .error e
          | .ok (repo2, childHash2) =>
            let entries := sortTreeEntries (entries0 ++ [(name, true, childHash2)])
            .ok ({ repo2 with objs := repo2.objs ++ [.tree entries] }, repo2.objs.length)
      | none =>
        match writeTree repo [] restParts blobHash with
        | .error e => .error e
        | .ok (repo2, childHash2) =>
          let entries := sortTreeEntries (entries0 ++ [(name, true, childHash2)])
          .ok ({ repo2 with objs := repo2.objs ++ [.tree entries] }, repo2.objs.length)

/-- Resolve the base tree and parent of the branch head (empty tree and
no parent when the repository has no commits yet). -/
def resolveBaseTree (repo : ChartRepo) :
    Except ChartErr (List (String × Bool × Nat) × Option Nat) :=
  match repo.mainRef with
  | none => .ok ([], none)
  | some h =>
    match repo.objs[h]? with
    | some (.commitObj th _ _) =>
      match repo.objs[th]? with
      | some (.tree es) => .ok (es, some h)
      | _ => .error .internalErr
    | _ => .error .internalErr

/-- The per-update loop of WriteChartFiles: clean the path, reject
duplicates within the batch, store the blob, rebuild the tree.  Mutations
performed before a failure persist in the returned repository, exactly as
the Go code leaves them in the storer. -/
def writeLoop (repo : ChartRepo) (baseTree : List (String × Bool × Nat)) (seen : List String)
    (lastHash : Option Nat) :
    List FileUpdate → ChartRepo × Except ChartErr (Option Nat)
  | [] => (repo, .ok lastHash)
  | u :: rest =>
    match cleanChartPath u.path with
    | .error e => (repo, .error e)
    | .ok cleanPath =>
      if cleanPath ∈ seen then (repo, .error .invalidPath)
      else
        let rb := writeBlob repo u.content
        match writeTree rb.1 baseTree ((splitChars '/' cleanPath.data).map String.mk) rb.2 with
        | .error e => (rb.1, .error e)
        | .ok (repo2, treeHash) =>
          match getTreeEntries repo2 treeHash with
          | .error e => (repo2, .error e)
          | .ok es => writeLoop repo2 es (cleanPath :: seen) (some treeHash) rest

/-- Embedding of WriteChartFiles: reject an empty batch, apply every
update, then store one commit for the whole batch and advance the branch
ref.  The commit and the ref update are the last two steps. -/
def writeChartFiles (repo : ChartRepo) (updates : List FileUpdate) (message : String) :
    ChartRepo × Except ChartErr Nat :=
  if updates.isEmpty then (repo, .error .invalidPath)
  else
    match resolveBaseTree repo with
    | .error e => (repo, .error e)
    | .ok (baseTree, parentHash) =>
      match writeLoop repo baseTree [] none updates with
      | (repo2, .error e) => (repo2, .error e)
      | (repo2, .ok none) => (repo2, .error .internalErr)
      | (repo2, .ok (some treeHash)) =>
        let commitHash := repo2.objs.length
        ({ objs := repo2.objs ++ [.commitObj treeHash parentHash message],
           mainRef := some commitHash }, .ok commitHash)

/-- Embedding of the HandleChartPut validation wrapped around
WriteChartFiles: empty message, empty file list and empty paths are
rejected before the store is touched. -/
def putChartFiles (repo : ChartRepo) (message : String) (files : List FileUpdate) :
    ChartRepo × Except ChartErr Nat :=
  if strTrim message == "" then (repo, .error .messageRequired)
  else if files.isEmpty then (repo, .error .filesRequired)
  else if files.any (fun f => f.path == "") then (repo, .error .filePathRequired)
  else writeChartFiles repo files message

/-- Recursive file listing of a tree (tree.Files of go-git): blobs under
their slash-joined names; the fuel starts above the store size, which
bounds the depth of any tree reachable in a store whose trees reference
previously written objects. -/
def collectFilesAux (repo : ChartRepo) :
    Nat → List Char → List (String × Bool × Nat) → List String
  | 0, _, _ => []
  | fuel + 1, pre, entries =>
    entries.flatMap fun e =>
      if e.2.1 then
        match repo.objs[e.2.2]? with
        | some (.tree es) => collectFilesAux repo fuel (pre ++ e.1.data ++ ['/']) es
        | _ => []
      else
        match repo.objs[e.2.2]? with
        | some (.blob _) => [String.mk (pre ++ e.1.data)]
        | _ => []

/-- Listing at a resolved commit hash: the sorted recursive file list. -/
def listTreeAt (repo : ChartRepo) (h : Nat) : Except ChartErr (Option Nat × List String) :=
  match repo.objs[h]? with
  | some (.commitObj th _ _) =>
    match repo.objs[th]? with
    | some (.tree es) =>
      .ok (some h,
        List.insertionSort (fun a b => strLe a b = true)
          (collectFilesAux repo (repo.objs.length + 1) [] es))
    | _ => .error .internalErr
  | _ => .error .internalErr

/-- Embedding of ListChartTree: with no ref, resolve the branch HEAD,
returning an empty resolved ref and file list when there are no commits
yet; otherwise list the referenced commit. -/
def listChartTree (repo : ChartRepo) (ref : Option Nat) :
    Except ChartErr (Option Nat × List String) :=
  match ref with
  | none =>
    match repo.mainRef with
    | none => .ok (none, [])
    | some h => listTreeAt repo h
  | some h => listTreeAt repo h

/-- Claim C9: on a repository with no commits, listing with no ref
returns an empty resolved ref and empty file list rather than an error;
after one writeFiles call storing planemgr.tf.json with message
Initialization, listing with no ref resolves to the new commit hash and
lists exactly that file. -/
theorem listTree_fresh_and_first_save :
    (∀ repo : ChartRepo, repo.mainRef = none → listChartTree repo none = .ok (none, [])) ∧
    ((putChartFiles freshChartRepo "Initialization"
        [⟨"planemgr.tf.json", "\x7b\x7d"⟩]).2 = .ok 2 ∧
      (putChartFiles freshChartRepo "Initialization"
        [⟨"planemgr.tf.json", "\x7b\x7d"⟩]).1.mainRef = some 2 ∧
      listChartTree (putChartFiles freshChartRepo "Initialization"
        [⟨"planemgr.tf.json", "\x7b\x7d"⟩]).1 none = .ok (some 2, ["planemgr.tf.json"])) := by
  constructor
  · intro repo h
    unfold listChartTree
    rw [h]
  · exact ⟨rfl, by decide, rfl⟩

/-- Witness for C9 at the fresh repository. -/
theorem listTree_fresh_and_first_save_witness :
    freshChartRepo.mainRef = none ∧ listChartTree freshChartRepo none = .ok (none, []) :=
  ⟨rfl, listTree_fresh_and_first_save.1 freshChartRepo rfl⟩

/-- Batch whose first entry is valid and whose second entry escapes the
repository root. -/
def mixedBatch : List FileUpdate := [⟨"a", "x"⟩, ⟨"../b", "y"⟩]

/-- Counterexample to C7 as stated: a batch with a valid first file and
a malformed second path fails with the invalid-path error, but the blob
and tree objects of the first file have already been written to the
store before the validation of the second path runs, so the rejection is
not free of mutation; only the branch ref (and the commit) are withheld. -/
theorem writeChartFiles_partial_store_counterexample :
    (putChartFiles freshChartRepo "msg" mixedBatch).2 = .error .invalidPath ∧
    (putChartFiles freshChartRepo "msg" mixedBatch).1.objs.length = 2 ∧
    freshChartRepo.objs.length = 0 ∧
    (putChartFiles freshChartRepo "msg" mixedBatch).1.mainRef = none := by
  exact ⟨rfl, by decide, by decide, by decide⟩

/-- Test for commit objects, used to state that failed writes never
store a commit. -/
def isCommitObj : GitObj → Bool
  | .commitObj .. => true
  | _ => false

/-- A successful writeTree only appends tree objects and never touches
the branch ref. -/
theorem writeTree_extends : ∀ (parts : List String) (repo : ChartRepo)
    (tree : List (String × Bool × Nat)) (blobHash : Nat) (repo2 : ChartRepo) (hsh : Nat),
    writeTree repo tree parts blobHash = .ok (repo2, hsh) →
    ∃ newObjs, repo2.objs = repo.objs ++ newObjs ∧
      (∀ o ∈ newObjs, isCommitObj o = false) ∧ repo2.mainRef = repo.mainRef := by
  intro parts
  induction parts with
  | nil =>
    intro repo tree b r2 hsh hw
    simp [writeTree] at hw
  | cons name restParts ih =>
    intro repo tree b r2 hsh hw
    simp only [writeTree] at hw
    split at hw
    · split at hw
      · cases hw
      · rcases hw with ⟨⟩
        exact ⟨[.tree (sortTreeEntries
          ((tree.filter fun e => !(e.1 == name)) ++ [(name, false, b)]))],
          rfl, by intro o ho; simp at ho; rw [ho]; rfl, rfl⟩
    · split at hw
      · cases hw
      · split at hw
        · cases hw
        · split at hw
          · cases hw
          · next repo3 child2 heq =>
            rcases hw with ⟨⟩
            rcases ih repo _ b repo3 child2 heq with ⟨n1, hobjs, hnc, href⟩
            refine ⟨n1 ++ [.tree (sortTreeEntries
              ((tree.filter fun e => !(e.1 == name)) ++ [(name, true, child2)]))], ?_, ?_, href⟩
            · rw [hobjs, List.append_assoc]
            · intro o ho
              rcases List.mem_append.mp ho with h1 | h2
              · exact hnc o h1
              · simp at h2; rw [h2]; rfl
      · split at hw
        · cases hw
        · next repo3 child2 heq =>
          rcases hw with ⟨⟩
          rcases ih repo [] b repo3 child2 heq with ⟨n1, hobjs, hnc, href⟩
          refine ⟨n1 ++ [.tree (sortTreeEntries
            ((tree.filter fun e => !(e.1 == name)) ++ [(name, true, child2)]))], ?_, ?_, href⟩
          · rw [hobjs, List.append_assoc]
          · intro o ho
            rcases List.mem_append.mp ho with h1 | h2
            · exact hnc o h1
            · simp at h2; rw [h2]; rfl

/-- The update loop only appends blob and tree objects and never touches
the branch ref, whether it succeeds or fails. -/
theorem writeLoop_extends : ∀ (us : List FileUpdate) (repo : ChartRepo)
    (baseTree : List (String × Bool × Nat)) (seen : List String) (lastH : Option Nat),
    ∃ newObjs, (writeLoop repo baseTree seen lastH us).1.objs = repo.objs ++ newObjs ∧
      (∀ o ∈ newObjs, isCommitObj o = false) ∧
      (writeLoop repo baseTree seen lastH us).1.mainRef = repo.mainRef := by
  intro us
  induction us with
  | nil =>
    intro repo baseTree seen lastH
    refine ⟨[], ?_, ?_, ?_⟩
    · simp [writeLoop]
    · intro o ho; cases ho
    · rfl
  | cons u rest ih =>
    intro repo baseTree seen lastH
    simp only [writeLoop]
    split
    · refine ⟨[], by simp, ?_, rfl⟩
      intro o ho; cases ho
    · split
      · refine ⟨[], by simp, ?_, rfl⟩
        intro o ho; cases ho
      · split
        · next e heq =>
          refine ⟨[.blob u.content], rfl, ?_, rfl⟩
          intro o ho; simp at ho; rw [ho]; rfl
        · next repo2 th heq =>
          rcases writeTree_extends _ _ _ _ _ _ heq with ⟨n1, hobjs, hnc, href⟩
          split
          · refine ⟨.blob u.content :: n1, ?_, ?_, href⟩
            · rw [hobjs]; simp [writeBlob]
            · intro o ho
              rcases List.mem_cons.mp ho with rfl | h2
              · rfl
              · exact hnc o h2
          · next es heq2 =>
            rcases ih repo2 es _ _ with ⟨n2, hobjs2, hnc2, href2⟩
            refine ⟨.blob u.content :: (n1 ++ n2), ?_, ?_, ?_⟩
            · rw [hobjs2, hobjs]; simp [writeBlob]
            · intro o ho
              rcases List.mem_cons.mp ho with rfl | h2
              · rfl
              · rcases List.mem_append.mp h2 with h3 | h4
                · exact hnc o h3
                · exact hnc2 o h4
            · rw [href2, href]; rfl

/-- The loop fails whenever some update of the batch has a malformed
path. -/
theorem writeLoop_error_of_bad_path : ∀ (us : List FileUpdate) (repo : ChartRepo)
    (baseTree : List (String × Bool × Nat)) (seen : List String) (lastH : Option Nat),
    (∃ u ∈ us, ∃ e, cleanChartPath u.path = .error e) →
    ∃ e2, (writeLoop repo baseTree seen lastH us).2 = .error e2 := by
  intro us
  induction us with
  | nil =>
    intro repo bt seen lastH h
    rcases h with ⟨u, hu, _⟩
    cases hu
  | cons u rest ih =>
    intro repo bt seen lastH h
    simp only [writeLoop]
    split
    · next e heq => exact ⟨e, rfl⟩
    · next cleanPath heq =>
      split
      · exact ⟨.invalidPath, rfl⟩
      · split
        · next e2 heq2 => exact ⟨e2, rfl⟩
        · next repo2 th heq2 =>
          split
          · next e3 heq3 => exact ⟨e3, rfl⟩
          · next es heq3 =>
            apply ih
            rcases h with ⟨v, hv, e4, he4⟩
            rcases List.mem_cons.mp hv with rfl | hvr
            · rw [he4] at heq; cases heq
            · exact ⟨v, hvr, e4, he4⟩

/-- The loop fails whenever two updates of the batch clean to the same
path (the seen-set check). -/
theorem writeLoop_error_of_dup : ∀ (us : List FileUpdate) (repo : ChartRepo)
    (baseTree : List (String × Bool × Nat)) (seen : List String) (lastH : Option Nat),
    seen.Nodup →
    ¬ ((us.filterMap fun u => (cleanChartPath u.path).toOption) ++ seen).Nodup →
    ∃ e2, (writeLoop repo baseTree seen lastH us).2 = .error e2 := by
  intro us
  induction us with
  | nil =>
    intro repo bt seen lastH hseen hdup
    simp only [List.filterMap_nil, List.nil_append] at hdup
    exact absurd hseen hdup
  | cons u rest ih =>
    intro repo bt seen lastH hseen hdup
    simp only [writeLoop]
    split
    · next e heq => exact ⟨e, rfl⟩
    · next cleanPath heq =>
      have hfm : (List.filterMap (fun v => (cleanChartPath v.path).toOption) (u :: rest)) =
          cleanPath :: rest.filterMap fun v => (cleanChartPath v.path).toOption := by
        rw [List.filterMap_cons]
        simp only [heq]
        rfl
      rw [hfm] at hdup
      split
      · exact ⟨.invalidPath, rfl⟩
      · next hnotmem =>
        split
        · next e2 heq2 => exact ⟨e2, rfl⟩
        · next repo2 th heq2 =>
          split
          · next e3 heq3 => exact ⟨e3, rfl⟩
          · next es heq3 =>
            apply ih repo2 es (cleanPath :: seen) (some th)
            · exact List.nodup_cons.mpr ⟨hnotmem, hseen⟩
            · intro hnd
              apply hdup
              rw [List.cons_append]
              exact (List.perm_middle.nodup_iff).mp hnd

/-- A result equal to the input repository trivially extends it with no
new objects. -/
theorem chartNoChange (repo r : ChartRepo) (hobjs : r.objs = repo.objs)
    (href : r.mainRef = repo.mainRef) :
    ∃ newObjs, r.objs = repo.objs ++ newObjs ∧ (∀ o ∈ newObjs, isCommitObj o = false) ∧
      r.mainRef = repo.mainRef := by
  refine ⟨[], by simp [hobjs], ?_, href⟩
  intro o ho
  cases ho

/-- Every outcome of a chart put either leaves the branch ref unchanged
and appends no commit object, or is a success. -/
theorem putChartFiles_cases (repo : ChartRepo) (message : String) (files : List FileUpdate) :
    (∃ newObjs, (putChartFiles repo message files).1.objs = repo.objs ++ newObjs ∧
      (∀ o ∈ newObjs, isCommitObj o = false) ∧
      (putChartFiles repo message files).1.mainRef = repo.mainRef) ∨
    (∃ h, (putChartFiles repo message files).2 = .ok h) := by
  unfold putChartFiles writeChartFiles
  split
  · exact Or.inl (chartNoChange repo _ rfl rfl)
  · split
    · exact Or.inl (chartNoChange repo _ rfl rfl)
    · split
      · exact Or.inl (chartNoChange repo _ rfl rfl)
      · split
        · exact Or.inl (chartNoChange repo _ rfl rfl)
        · next baseTree parentHash heq =>
          split
          · next repo2 e heq2 =>
            rcases writeLoop_extends files repo baseTree [] none with ⟨n1, hobjs, hnc, href⟩
            rw [heq2] at hobjs href
            exact Or.inl ⟨n1, hobjs, hnc, href⟩
          · next repo2 heq2 =>
            rcases writeLoop_extends files repo baseTree [] none with ⟨n1, hobjs, hnc, href⟩
            rw [heq2] at hobjs href
            exact Or.inl ⟨n1, hobjs, hnc, href⟩
          · next repo2 th heq2 =>
            exact Or.inr ⟨repo2.objs.length, rfl⟩

/-- Claim C7 (amended): the invalid inputs are all rejected with the
right error class — empty message, empty file list and empty path before
any mutation at the HTTP layer, malformed and duplicate paths inside
WriteChartFiles — and on any failure the branch ref never advances and
no commit object is stored; however the rejection of a malformed or
duplicate path in a later batch entry happens after the blob and tree
objects of earlier entries were already written to the store (see the
counterexample), so the store is not left entirely unwritten. -/
theorem putChartFiles_invalid_input (repo : ChartRepo) (message : String)
    (files : List FileUpdate) :
    (strTrim message = "" → putChartFiles repo message files = (repo, .error .messageRequired)) ∧
    (strTrim message ≠ "" → files = [] →
      putChartFiles repo message files = (repo, .error .filesRequired)) ∧
    ((∃ u ∈ files, ∃ e, cleanChartPath u.path = .error e) →
      ∃ e2, (putChartFiles repo message files).2 = .error e2) ∧
    (¬ (files.filterMap fun u => (cleanChartPath u.path).toOption).Nodup →
      ∃ e2, (putChartFiles repo message files).2 = .error e2) ∧
    (∀ e, (putChartFiles repo message files).2 = .error e →
      (putChartFiles repo message files).1.mainRef = repo.mainRef ∧
      ∃ newObjs, (putChartFiles repo message files).1.objs = repo.objs ++ newObjs ∧
        ∀ o ∈ newObjs, isCommitObj o = false) := by
  refine ⟨?_, ?_, ?_, ?_, ?_⟩
  · intro h
    simp [putChartFiles, h]
  · intro hm h
    subst h
    simp [putChartFiles, hm]
  · intro h
    unfold putChartFiles writeChartFiles
    split
    · exact ⟨.messageRequired, rfl⟩
    · split
      · exact ⟨.filesRequired, rfl⟩
      · split
        · exact ⟨.filePathRequired, rfl⟩
        · split
          · next e heq => exact ⟨e, rfl⟩
          · next baseTree parentHash heq =>
            split
            · next repo2 e heq2 => exact ⟨e, rfl⟩
            · exact ⟨.internalErr, rfl⟩
            · next repo2 th heq2 =>
              rcases writeLoop_error_of_bad_path files repo baseTree [] none h with ⟨e2, he2⟩
              rw [heq2] at he2
              cases he2
  · intro h
    unfold putChartFiles writeChartFiles
    split
    · exact ⟨.messageRequired, rfl⟩
    · split
      · exact ⟨.filesRequired, rfl⟩
      · split
        · exact ⟨.filePathRequired, rfl⟩
        · split
          · next e heq => exact ⟨e, rfl⟩
          · next baseTree parentHash heq =>
            split
            · next repo2 e heq2 => exact ⟨e, rfl⟩
            · exact ⟨.internalErr, rfl⟩
            · next repo2 th heq2 =>
              rcases writeLoop_error_of_dup files repo baseTree [] none List.nodup_nil
                  (by simpa using h) with ⟨e2, he2⟩
              rw [heq2] at he2
              cases he2
  · intro e he
    rcases putChartFiles_cases repo message files with ⟨n1, hobjs, hnc, href⟩ | ⟨h2, hok⟩
    · exact ⟨href, n1, hobjs, hnc⟩
    · rw [hok] at he
      cases he

/-- Witness for the amended C7, exercising each rejection class at
concrete inputs. -/
theorem putChartFiles_invalid_input_witness :
    (strTrim "  " = "" ∧
      putChartFiles freshChartRepo "  " [⟨"a", "x"⟩] =
        (freshChartRepo, .error .messageRequired)) ∧
    (∃ e2, (putChartFiles freshChartRepo "msg" [⟨"../b", "y"⟩]).2 = .error e2) ∧
    (∃ e2, (putChartFiles freshChartRepo "msg" [⟨"a", "x"⟩, ⟨"a", "y"⟩]).2 = .error e2) ∧
    ((putChartFiles freshChartRepo "msg" mixedBatch).1.mainRef = freshChartRepo.mainRef) :=
  ⟨⟨by decide,
      (putChartFiles_invalid_input freshChartRepo "  " [⟨"a", "x"⟩]).1 (by decide)⟩,
    (putChartFiles_invalid_input freshChartRepo "msg" [⟨"../b", "y"⟩]).2.2.1
      ⟨⟨"../b", "y"⟩, List.mem_cons_self _ _, .invalidPath, rfl⟩,
    (putChartFiles_invalid_input freshChartRepo "msg" [⟨"a", "x"⟩, ⟨"a", "y"⟩]).2.2.2.1
      (by decide),
    ((putChartFiles_invalid_input freshChartRepo "msg" mixedBatch).2.2.2.2 .invalidPath
      rfl).1⟩

end Planemgr
